import Mathlib

/-!
# WFLCG: a buffered multi-lane linear congruential generator

Shallow embedding of `WFLCG_c.h` and proofs about it.

Conventions of the embedding:

* `uint32_t` / `unsigned` / `uint64_t` values are natural numbers; every C operation that can
  leave the range of its type is followed by an explicit `% 2 ^ 32` (or `% 2 ^ 64`); `unsigned`
  is taken to be 32 bits wide.
* `WFLCG_c` is the C struct: the lane array `buffer` is a list (of length 16 in every
  well-formed state, as fixed by the array type `uint32_t buffer[16]`) and `index` is the cursor.
* A C function that mutates `*obj` becomes a function returning the new state.
* A function that reads `obj->buffer[k]` returns `none` when `k` is outside the array
  (undefined behaviour in C), and `some (result, new state)` otherwise.
* A `float` / `double` result is represented by its bit pattern (the `uValue` member of the
  conversion union); `binary32_decode` / `binary64_decode` give the IEEE-754 reading.
-/

namespace WFLCG

/-! ## Data model -/

/-- The C struct `WFLCG_c`: sixteen 32-bit lanes and the cursor `index`. -/
structure WFLCG_c where
  buffer : List Nat
  index : Nat
deriving DecidableEq, Repr

/-- The macro `WFLCG_C_BUFFER_SIZE`. -/
def WFLCG_C_BUFFER_SIZE : Nat := 16

/-- The array type of `buffer`: exactly `WFLCG_C_BUFFER_SIZE` lanes. -/
def HasLanes (obj : WFLCG_c) : Prop := obj.buffer.length = WFLCG_C_BUFFER_SIZE

/-- The element type of `buffer`: every lane is a `uint32_t`. -/
def LanesU32 (obj : WFLCG_c) : Prop := ∀ x ∈ obj.buffer, x < 2 ^ 32

instance (obj : WFLCG_c) : Decidable (HasLanes obj) := by
  unfold HasLanes; infer_instance

instance (obj : WFLCG_c) : Decidable (LanesU32 obj) := by
  unfold LanesU32; infer_instance

/-! ## Seeding -/

/-- Body of the loop of `WFLCG_c_init_1_seed`, at loop counter `i`; the loop state is the
running `seed` and the lane array. -/
def init_1_seed_body (st : Nat × List Nat) (i : Nat) : Nat × List Nat :=
  let seed := (st.1 * 2364742333 + 14567) % 2 ^ 32
  (seed, st.2.set i seed)

/-- The function `WFLCG_c_init_1_seed`; the loop runs `i = 0, 1, ..., 15`. -/
def WFLCG_c_init_1_seed (obj : WFLCG_c) (seed : Nat) : WFLCG_c :=
  let seed := (seed * 2364742333 + 14567) % 2 ^ 32
  let st := (List.range WFLCG_C_BUFFER_SIZE).foldl init_1_seed_body (seed, obj.buffer)
  { buffer := st.2, index := 0 }

/-- Body of the loop of `WFLCG_c_init_2_seeds`, at loop counter `i`; the loop state is
`seed1`, `seed2` and the lane array. -/
def init_2_seeds_body (st : Nat × Nat × List Nat) (i : Nat) : Nat × Nat × List Nat :=
  let seed1 := (st.1 * 2364742333 + 14567) % 2 ^ 32
  let seed2 := (st.2.1 * 4112992229 + 12345) % 2 ^ 32
  (seed1, seed2, (st.2.2.set i seed1).set (i + 1) seed2)

/-- The function `WFLCG_c_init_2_seeds`; the loop runs `i = 0, 2, ..., 14`
(`for(i = 0; i < 16; i += 2)`). -/
def WFLCG_c_init_2_seeds (obj : WFLCG_c) (seed1 seed2 : Nat) : WFLCG_c :=
  let seed1 := (seed1 * 2364742333 + 14567) % 2 ^ 32
  let seed2 := (seed2 * 4112992229 + 12345) % 2 ^ 32
  let st := (List.range' 0 (WFLCG_C_BUFFER_SIZE / 2) 2).foldl init_2_seeds_body
    (seed1, seed2, obj.buffer)
  { buffer := st.2.2, index := 0 }

/-- The function `WFLCG_c_init_default`. -/
def WFLCG_c_init_default (obj : WFLCG_c) : WFLCG_c :=
  WFLCG_c_init_1_seed obj 0

/-! ## Refill -/

/-- The table `multipliers` of `WFLCG_c_refill_buffer`. -/
def multipliers : List Nat :=
  [3363461597, 3169304909, 2169304933, 2958304901,
   2738319061, 2738319613, 3238311437, 1238311381,
   1964742293, 1964743093, 2364742333, 2312912477,
   2312913061, 1312912501, 2812992317, 4112992229]

/-- The table `increments` of `WFLCG_c_refill_buffer`. -/
def increments : List Nat :=
  [8346591, 18134761, 12345, 234567,
   14567, 12345, 123123, 11223345,
   123131, 83851, 14567, 134567,
   34567, 32145, 123093, 12345]

/-- Body of the loop of `WFLCG_c_refill_buffer`, at loop counter `i`:
`buffer[i] = buffer[i] * multipliers[i] + increments[i]` in `uint32_t`. -/
def refill_body (buf : List Nat) (i : Nat) : List Nat :=
  buf.set i ((buf.getD i 0 * multipliers.getD i 0 + increments.getD i 0) % 2 ^ 32)

/-- The function `WFLCG_c_refill_buffer`; the loop runs `i = 0, 1, ..., 15`. -/
def WFLCG_c_refill_buffer (obj : WFLCG_c) : WFLCG_c :=
  { buffer := (List.range WFLCG_C_BUFFER_SIZE).foldl refill_body obj.buffer, index := 0 }

/-! ## Value extraction -/

/-- The common first statement of the extraction functions:
`if(obj->index == WFLCG_C_BUFFER_SIZE) WFLCG_c_refill_buffer(obj);`. -/
def refill_if_exhausted (obj : WFLCG_c) : WFLCG_c :=
  if obj.index = WFLCG_C_BUFFER_SIZE then WFLCG_c_refill_buffer obj else obj

/-- The function `WFLCG_c_get_value`: the 32-bit result and the new state. -/
def WFLCG_c_get_value (obj : WFLCG_c) : Option (Nat × WFLCG_c) :=
  let obj := refill_if_exhausted obj
  match obj.buffer[obj.index]? with
  | none => none
  | some v => some (v ^^^ (v >>> 24), { obj with index := (obj.index + 1) % 2 ^ 32 })

/-- The function `WFLCG_c_get_float`: the bit pattern `conv.uValue` of the result and the
new state. -/
def WFLCG_c_get_float (obj : WFLCG_c) : Option (Nat × WFLCG_c) :=
  let obj := refill_if_exhausted obj
  match obj.buffer[obj.index]? with
  | none => none
  | some v => some (0x3F800000 ||| (v >>> 9), { obj with index := (obj.index + 1) % 2 ^ 32 })

/-- The function `WFLCG_c_get_double`: the bit pattern `conv.uValue` of the result and the
new state. -/
def WFLCG_c_get_double (obj : WFLCG_c) : Option (Nat × WFLCG_c) :=
  match WFLCG_c_get_value obj with
  | none => none
  | some (v, obj) => some (0x3FF0000000000000 ||| ((v <<< 20) % 2 ^ 64), obj)

/-- The function `WFLCG_c_get_double2`: the bit pattern `conv.uValue` of the result and the
new state. -/
def WFLCG_c_get_double2 (obj : WFLCG_c) : Option (Nat × WFLCG_c) :=
  let obj := refill_if_exhausted obj
  match obj.buffer[obj.index]?, obj.buffer[(obj.index + 1) % 2 ^ 32]? with
  | some value1, some value2 =>
    some (0x3FF0000000000000 ||| (((value1 <<< 20) % 2 ^ 64) ^^^ (value2 >>> 4)),
          { obj with index := (obj.index + 2) % 2 ^ 32 })
  | _, _ => none

/-! ## Direct buffer access -/

/-- The function `WFLCG_c_buffer_element_float`: the bit pattern of the result and the
state, which the function does not write. -/
def WFLCG_c_buffer_element_float (obj : WFLCG_c) (index : Nat) : Option (Nat × WFLCG_c) :=
  match obj.buffer[index]? with
  | none => none
  | some v => some (0x3F800000 ||| (v >>> 9), obj)

/-- The function `WFLCG_c_buffer_element_double`. -/
def WFLCG_c_buffer_element_double (obj : WFLCG_c) (index : Nat) : Option (Nat × WFLCG_c) :=
  match obj.buffer[index]? with
  | none => none
  | some value =>
    let value := value ^^^ (value >>> 24)
    some (0x3FF0000000000000 ||| ((value <<< 20) % 2 ^ 64), obj)

/-- The function `WFLCG_c_buffer_element_double2`. -/
def WFLCG_c_buffer_element_double2 (obj : WFLCG_c) (index : Nat) : Option (Nat × WFLCG_c) :=
  match obj.buffer[index]?, obj.buffer[(index + 1) % 2 ^ 32]? with
  | some value1, some value2 =>
    some (0x3FF0000000000000 ||| (((value1 <<< 20) % 2 ^ 64) ^^^ (value2 >>> 4)), obj)
  | _, _ => none

/-! ## Auxiliary definitions used in the statements -/

/-- The linear congruential step `x * 2364742333 + 14567` in `uint32_t`. -/
def seed_step_1 (x : Nat) : Nat := (x * 2364742333 + 14567) % 2 ^ 32

/-- The linear congruential step `x * 4112992229 + 12345` in `uint32_t`. -/
def seed_step_2 (x : Nat) : Nat := (x * 4112992229 + 12345) % 2 ^ 32

/-- The XOR-fold `x ^ (x >> 24)` applied by `WFLCG_c_get_value` to a lane. -/
def fold24 (x : Nat) : Nat := x ^^^ (x >>> 24)

/-- The bit pattern `0x3F800000 | (x >> 9)` built by `WFLCG_c_get_float` from a lane. -/
def float_bits (x : Nat) : Nat := 0x3F800000 ||| (x >>> 9)

/-- Calling an extraction function `n` times in a row: the list of the `n` results, in
call order, and the final state; `none` as soon as one call reads outside the buffer. -/
def call_n (f : WFLCG_c → Option (Nat × WFLCG_c)) : Nat → WFLCG_c → Option (List Nat × WFLCG_c)
  | 0, obj => some ([], obj)
  | n + 1, obj =>
    match f obj with
    | none => none
    | some (v, obj1) =>
      match call_n f n obj1 with
      | none => none
      | some (vs, obj2) => some (v :: vs, obj2)

/-- The state-changing operations of the public interface. -/
inductive Op where
  | refill
  | nextU32
  | nextFloat
  | nextDouble
  | nextDouble2
deriving DecidableEq, Repr

/-- State after one operation; `none` when the operation reads a lane outside the buffer. -/
def apply_op : Op → WFLCG_c → Option WFLCG_c
  | Op.refill, obj => some (WFLCG_c_refill_buffer obj)
  | Op.nextU32, obj => (WFLCG_c_get_value obj).map Prod.snd
  | Op.nextFloat, obj => (WFLCG_c_get_float obj).map Prod.snd
  | Op.nextDouble, obj => (WFLCG_c_get_double obj).map Prod.snd
  | Op.nextDouble2, obj => (WFLCG_c_get_double2 obj).map Prod.snd

/-- The states reached after each operation of a sequence applied in order (one entry per
operation); `none` when some operation of the sequence reads a lane outside the buffer. -/
def run_trace : List Op → WFLCG_c → Option (List WFLCG_c)
  | [], _ => some []
  | op :: ops, obj =>
    match apply_op op obj with
    | none => none
    | some obj1 => (run_trace ops obj1).map (fun tr => obj1 :: tr)

/-- The caller contract of `WFLCG_c_get_double2` along a sequence of operations: whenever
the operation is `nextDouble2`, the cursor is not 15 at that moment (two lanes are left, or
the buffer is exhausted and will be refilled). -/
def double2_contract : List Op → WFLCG_c → Prop
  | [], _ => True
  | op :: ops, obj =>
    (op = Op.nextDouble2 → obj.index ≠ 15) ∧
    match apply_op op obj with
    | none => True
    | some obj1 => double2_contract ops obj1

/-- Reading of a bit pattern as an IEEE-754 number. -/
inductive IEEEValue where
  | finite (q : ℚ)
  | infinity (negative : Bool)
  | nan

/-- IEEE-754 binary32 reading of a 32-bit pattern (what the `float` member of the conversion
union holds): 1 sign bit, 8 exponent bits with bias 127, 23 fraction bits. -/
def binary32_decode (bits : Nat) : IEEEValue :=
  let sign : Nat := (bits / 2 ^ 31) % 2
  let e : Nat := (bits / 2 ^ 23) % 2 ^ 8
  let m : Nat := bits % 2 ^ 23
  if e = 2 ^ 8 - 1 then
    if m = 0 then IEEEValue.infinity (sign = 1) else IEEEValue.nan
  else if e = 0 then
    IEEEValue.finite ((-1) ^ sign * ((m : ℚ) / 2 ^ 23) * (2 : ℚ) ^ (-126 : ℤ))
  else
    IEEEValue.finite ((-1) ^ sign * (1 + (m : ℚ) / 2 ^ 23) * (2 : ℚ) ^ ((e : ℤ) - 127))

/-- IEEE-754 binary64 reading of a 64-bit pattern (what the `double` member of the
conversion union holds): 1 sign bit, 11 exponent bits with bias 1023, 52 fraction bits. -/
def binary64_decode (bits : Nat) : IEEEValue :=
  let sign : Nat := (bits / 2 ^ 63) % 2
  let e : Nat := (bits / 2 ^ 52) % 2 ^ 11
  let m : Nat := bits % 2 ^ 52
  if e = 2 ^ 11 - 1 then
    if m = 0 then IEEEValue.infinity (sign = 1) else IEEEValue.nan
  else if e = 0 then
    IEEEValue.finite ((-1) ^ sign * ((m : ℚ) / 2 ^ 52) * (2 : ℚ) ^ (-1022 : ℤ))
  else
    IEEEValue.finite ((-1) ^ sign * (1 + (m : ℚ) / 2 ^ 52) * (2 : ℚ) ^ ((e : ℤ) - 1023))

/-- A 64-bit pattern with sign bit 0 and biased exponent field 1023, that is a pattern in
[0x3FF0000000000000, 0x3FFFFFFFFFFFFFFF], whose IEEE-754 binary64 reading is the finite number
`1 + mantissa / 2^52`, at least 1 and below 2. -/
def Binary64InUnitRange (bits : Nat) : Prop :=
  0x3FF0000000000000 ≤ bits ∧ bits ≤ 0x3FFFFFFFFFFFFFFF ∧
  bits >>> 63 = 0 ∧ (bits >>> 52) % 2 ^ 11 = 1023 ∧
  ∃ q : ℚ, binary64_decode bits = IEEEValue.finite q ∧
    q = (1 : ℚ) + ((bits % 2 ^ 52 : Nat) : ℚ) / (2 : ℚ) ^ 52 ∧ 1 ≤ q ∧ q < 2

instance (ops : List Op) (obj : WFLCG_c) : Decidable (double2_contract ops obj) := by
  induction ops generalizing obj with
  | nil => unfold double2_contract; infer_instance
  | cons op ops ih =>
    unfold double2_contract
    cases h : apply_op op obj <;> simp only [] <;> infer_instance

/-- The refill update of lane `i`, `x * multipliers[i] + increments[i]` in `uint32_t`, as a
function of the lane value. -/
def lane_step (i x : Nat) : Nat :=
  (x * multipliers.getD i 0 + increments.getD i 0) % 2 ^ 32

/-- The bit pattern `0x3FF0000000000000 | ((uint64_t)u << 20)` built by `WFLCG_c_get_double`
and `WFLCG_c_buffer_element_double` from a 32-bit value. -/
def double_bits (u : Nat) : Nat := 0x3FF0000000000000 ||| ((u <<< 20) % 2 ^ 64)

/-- The bit pattern `0x3FF0000000000000 | (((uint64_t)value1 << 20) ^ ((uint64_t)value2 >> 4))`
built by `WFLCG_c_get_double2` and `WFLCG_c_buffer_element_double2` from two lanes. -/
def double2_bits (value1 value2 : Nat) : Nat :=
  0x3FF0000000000000 ||| (((value1 <<< 20) % 2 ^ 64) ^^^ (value2 >>> 4))

/-- The geometric sum `1 + m + ... + m ^ (n - 1)`, used to write the `n`-fold iterate of a
linear congruential step in closed form. -/
def geom (m : Nat) : Nat → Nat
  | 0 => 0
  | n + 1 => 1 + m * geom m n

/-- A struct with all lanes and the cursor zero, used as the memory handed to the seeding
functions in the examples. -/
def zero_state : WFLCG_c := ⟨List.replicate 16 0, 0⟩

/-! ## Loop invariants -/

theorem refill_fold_length (l : List Nat) :
    ∀ buf : List Nat, (l.foldl refill_body buf).length = buf.length := by
  induction l with
  | nil => intro buf; rfl
  | cons i l ih => intro buf; simp [List.foldl_cons, ih, refill_body]

theorem refill_fold_getElem? (n : Nat) (buf : List Nat) :
    ∀ j, ((List.range n).foldl refill_body buf)[j]? =
      if j < n then
        (buf[j]?).map (fun x => (x * multipliers.getD j 0 + increments.getD j 0) % 2 ^ 32)
      else buf[j]? := by
  induction n with
  | zero => simp
  | succ n ih =>
    intro j
    rw [List.range_succ, List.foldl_append]
    simp only [List.foldl_cons, List.foldl_nil, refill_body, List.getElem?_set',
      List.getD_eq_getElem?_getD, ih]
    by_cases hj : n = j
    · subst hj
      cases h : buf[n]? <;> simp
    · have h1 : (j < n + 1) ↔ (j < n) := by omega
      simp [hj, h1]

theorem init_1_seed_fold_length (l : List Nat) :
    ∀ st : Nat × List Nat, (l.foldl init_1_seed_body st).2.length = st.2.length := by
  induction l with
  | nil => intro st; rfl
  | cons i l ih => intro st; simp [List.foldl_cons, ih, init_1_seed_body]

theorem init_1_seed_fold (n seed : Nat) (buf : List Nat) :
    ((List.range n).foldl init_1_seed_body (seed, buf)).1 = seed_step_1^[n] seed ∧
    ∀ j, ((List.range n).foldl init_1_seed_body (seed, buf)).2[j]? =
      if j < n then (buf[j]?).map (fun _ => seed_step_1^[j + 1] seed) else buf[j]? := by
  induction n with
  | zero => simp
  | succ n ih =>
    rw [List.range_succ, List.foldl_append]
    obtain ⟨ih1, ih2⟩ := ih
    simp only [List.foldl_cons, List.foldl_nil, init_1_seed_body, List.getElem?_set', ih1, ih2]
    refine ⟨?_, fun j => ?_⟩
    · rw [Function.iterate_succ_apply']; rfl
    · by_cases hj : n = j
      · subst hj
        cases h : buf[n]? <;>
          simp [seed_step_1, Function.iterate_succ_apply', -Function.iterate_succ]
      · have h1 : (j < n + 1) ↔ (j < n) := by omega
        simp [hj, h1]

theorem init_2_seeds_fold_length (l : List Nat) :
    ∀ st : Nat × Nat × List Nat, (l.foldl init_2_seeds_body st).2.2.length = st.2.2.length := by
  induction l with
  | nil => intro st; rfl
  | cons i l ih => intro st; simp [List.foldl_cons, ih, init_2_seeds_body]

theorem init_2_seeds_fold (n seed1 seed2 : Nat) (buf : List Nat) :
    ((List.range' 0 n 2).foldl init_2_seeds_body (seed1, seed2, buf)).1 = seed_step_1^[n] seed1 ∧
    ((List.range' 0 n 2).foldl init_2_seeds_body (seed1, seed2, buf)).2.1
      = seed_step_2^[n] seed2 ∧
    ∀ j, ((List.range' 0 n 2).foldl init_2_seeds_body (seed1, seed2, buf)).2.2[j]? =
      if j < 2 * n then
        (buf[j]?).map (fun _ =>
          if j % 2 = 0 then seed_step_1^[j / 2 + 1] seed1 else seed_step_2^[j / 2 + 1] seed2)
      else buf[j]? := by
  induction n with
  | zero => simp
  | succ n ih =>
    rw [List.range'_concat, List.foldl_append]
    obtain ⟨ih1, ih2, ih3⟩ := ih
    simp only [List.foldl_cons, List.foldl_nil, init_2_seeds_body, List.getElem?_set', ih1, ih2,
      ih3, Nat.zero_add]
    refine ⟨?_, ?_, fun j => ?_⟩
    · rw [Function.iterate_succ_apply']; rfl
    · rw [Function.iterate_succ_apply']; rfl
    · by_cases hj : 2 * n + 1 = j
      · subst hj
        have e1 : (2 * n + 1) % 2 = 1 := by omega
        have e2 : (2 * n + 1) / 2 = n := by omega
        have e3 : ¬ (2 * n + 1 < 2 * n) := by omega
        have e4 : ¬ (2 * n = 2 * n + 1) := by omega
        have e5 : 2 * n + 1 < 2 * (n + 1) := by omega
        rw [if_pos rfl, if_neg e4, if_neg e3, if_pos e5, e1, e2]
        cases h : buf[2 * n + 1]? <;>
          simp [seed_step_2, Function.iterate_succ_apply', -Function.iterate_succ]
      · by_cases hj' : 2 * n = j
        · subst hj'
          have e1 : (2 * n) % 2 = 0 := by omega
          have e2 : (2 * n) / 2 = n := by omega
          have e3 : ¬ (2 * n < 2 * n) := by omega
          have e5 : 2 * n < 2 * (n + 1) := by omega
          rw [if_neg hj, if_pos rfl, if_neg e3, if_pos e5, e1, e2]
          cases h : buf[2 * n]? <;>
            simp [seed_step_1, Function.iterate_succ_apply', -Function.iterate_succ]
        · have h1 : (j < 2 * (n + 1)) ↔ (j < 2 * n) := by omega
          rw [if_neg hj, if_neg hj']
          simp only [h1]

/-! ## Lane-wise description of seeding and refill -/

theorem refill_hasLanes (obj : WFLCG_c) (h : HasLanes obj) :
    HasLanes (WFLCG_c_refill_buffer obj) := by
  unfold HasLanes at *
  simp only [WFLCG_c_refill_buffer, refill_fold_length]
  exact h

theorem refill_index (obj : WFLCG_c) : (WFLCG_c_refill_buffer obj).index = 0 := rfl

theorem refill_lane (obj : WFLCG_c) (i x : Nat) (hi : i < 16) (hx : obj.buffer[i]? = some x) :
    (WFLCG_c_refill_buffer obj).buffer[i]? =
      some ((x * multipliers.getD i 0 + increments.getD i 0) % 2 ^ 32) := by
  simp only [WFLCG_c_refill_buffer, WFLCG_C_BUFFER_SIZE, refill_fold_getElem?, if_pos hi, hx,
    Option.map_some']

theorem refill_lanesU32 (obj : WFLCG_c) (h : HasLanes obj) :
    LanesU32 (WFLCG_c_refill_buffer obj) := by
  intro y hy
  obtain ⟨i, hi, rfl⟩ := List.getElem_of_mem hy
  have hlen : (WFLCG_c_refill_buffer obj).buffer.length = 16 := refill_hasLanes obj h
  have hi16 : i < 16 := by omega
  have hib : i < obj.buffer.length := by rw [h]; exact hi16
  have := refill_lane obj i obj.buffer[i] hi16 (List.getElem?_eq_getElem hib)
  rw [List.getElem?_eq_getElem hi] at this
  injection this with this
  rw [this]
  exact Nat.mod_lt _ (by norm_num)

theorem init_1_seed_hasLanes (obj : WFLCG_c) (h : HasLanes obj) (seed : Nat) :
    HasLanes (WFLCG_c_init_1_seed obj seed) := by
  unfold HasLanes at *
  simp only [WFLCG_c_init_1_seed, init_1_seed_fold_length]
  exact h

theorem init_1_seed_lane (obj : WFLCG_c) (h : HasLanes obj) (seed i : Nat) (hi : i < 16) :
    (WFLCG_c_init_1_seed obj seed).buffer[i]? = some (seed_step_1^[i + 2] seed) := by
  have hib : i < obj.buffer.length := by rw [h]; exact hi
  have := (init_1_seed_fold 16 ((seed * 2364742333 + 14567) % 2 ^ 32) obj.buffer).2 i
  simp only [WFLCG_c_init_1_seed, WFLCG_C_BUFFER_SIZE, this, if_pos hi,
    List.getElem?_eq_getElem hib, Option.map_some']
  rfl

theorem init_2_seeds_hasLanes (obj : WFLCG_c) (h : HasLanes obj) (seed1 seed2 : Nat) :
    HasLanes (WFLCG_c_init_2_seeds obj seed1 seed2) := by
  unfold HasLanes at *
  simp only [WFLCG_c_init_2_seeds, init_2_seeds_fold_length]
  exact h

theorem init_2_seeds_lane (obj : WFLCG_c) (h : HasLanes obj) (seed1 seed2 i : Nat)
    (hi : i < 16) :
    (WFLCG_c_init_2_seeds obj seed1 seed2).buffer[i]? =
      some (if i % 2 = 0 then seed_step_1^[i / 2 + 2] seed1
            else seed_step_2^[i / 2 + 2] seed2) := by
  have hib : i < obj.buffer.length := by rw [h]; exact hi
  have := (init_2_seeds_fold 8 ((seed1 * 2364742333 + 14567) % 2 ^ 32)
    ((seed2 * 4112992229 + 12345) % 2 ^ 32) obj.buffer).2.2 i
  simp only [WFLCG_c_init_2_seeds, WFLCG_C_BUFFER_SIZE, this, if_pos hi,
    List.getElem?_eq_getElem hib, Option.map_some']
  rfl

/-! ## The refill check at the head of the extraction functions -/

theorem refill_if_exhausted_eq (obj : WFLCG_c) (hc : obj.index ≤ 16) :
    refill_if_exhausted obj = if obj.index < 16 then obj else WFLCG_c_refill_buffer obj := by
  unfold refill_if_exhausted WFLCG_C_BUFFER_SIZE
  by_cases h : obj.index = 16
  · rw [if_pos h, if_neg (by omega)]
  · rw [if_neg h, if_pos (by omega)]

theorem refill_if_exhausted_hasLanes (obj : WFLCG_c) (h : HasLanes obj) :
    HasLanes (refill_if_exhausted obj) := by
  unfold refill_if_exhausted
  split
  · exact refill_hasLanes obj h
  · exact h

theorem refill_if_exhausted_index_lt (obj : WFLCG_c) (hc : obj.index ≤ 16) :
    (refill_if_exhausted obj).index < 16 := by
  unfold refill_if_exhausted WFLCG_C_BUFFER_SIZE
  by_cases h : obj.index = 16
  · rw [if_pos h]; simp [refill_index]
  · rw [if_neg h]; omega

theorem refill_if_exhausted_lanesU32 (obj : WFLCG_c) (h : HasLanes obj) (hu : LanesU32 obj) :
    LanesU32 (refill_if_exhausted obj) := by
  unfold refill_if_exhausted
  split
  · exact refill_lanesU32 obj h
  · exact hu

theorem get_value_eq (obj : WFLCG_c) (h : HasLanes obj) (hc : obj.index ≤ 16) :
    ∃ v, (refill_if_exhausted obj).buffer[(refill_if_exhausted obj).index]? = some v ∧
      WFLCG_c_get_value obj =
        some (v ^^^ (v >>> 24),
          ⟨(refill_if_exhausted obj).buffer, (refill_if_exhausted obj).index + 1⟩) := by
  have hl : (refill_if_exhausted obj).buffer.length = 16 := refill_if_exhausted_hasLanes obj h
  have hi := refill_if_exhausted_index_lt obj hc
  have hb : (refill_if_exhausted obj).index < (refill_if_exhausted obj).buffer.length := by
    omega
  refine ⟨_, List.getElem?_eq_getElem hb, ?_⟩
  have hm : ((refill_if_exhausted obj).index + 1) % 2 ^ 32 =
      (refill_if_exhausted obj).index + 1 := by omega
  simp only [WFLCG_c_get_value, List.getElem?_eq_getElem hb, hm]

/-! ## Refill, nextU32 and seeding -/

/-- C1: for every buffer of 16 lanes and every cursor value, after `WFLCG_c_refill_buffer`
lane `i` (for `i < 16`) holds `(old lane[i] * multipliers[i] + increments[i]) mod 2^32`, the
cursor is 0 and the buffer still has 16 lanes. -/
theorem refill_buffer_spec (obj : WFLCG_c) (h : HasLanes obj) (i : Nat) (hi : i < 16) :
    ∃ x m c, obj.buffer[i]? = some x ∧ multipliers[i]? = some m ∧ increments[i]? = some c ∧
      (WFLCG_c_refill_buffer obj).buffer[i]? = some ((x * m + c) % 2 ^ 32) ∧
      (WFLCG_c_refill_buffer obj).index = 0 ∧ HasLanes (WFLCG_c_refill_buffer obj) := by
  have hib : i < obj.buffer.length := by rw [h]; exact hi
  have hm : i < multipliers.length := hi
  have hc : i < increments.length := hi
  refine ⟨obj.buffer[i], multipliers[i], increments[i], List.getElem?_eq_getElem hib,
    List.getElem?_eq_getElem hm, List.getElem?_eq_getElem hc, ?_, rfl, refill_hasLanes obj h⟩
  rw [refill_lane obj i obj.buffer[i] hi (List.getElem?_eq_getElem hib)]
  simp [List.getD_eq_getElem?_getD, List.getElem?_eq_getElem hm, List.getElem?_eq_getElem hc]

/-- Witness for C1: the all-ones buffer with cursor 5, lane 3 (the product wraps). -/
theorem refill_buffer_spec_witness :
    HasLanes ⟨List.replicate 16 4294967295, 5⟩ ∧ 3 < 16 ∧
    ∃ x m c, (WFLCG_c.mk (List.replicate 16 4294967295) 5).buffer[3]? = some x ∧
      multipliers[3]? = some m ∧ increments[3]? = some c ∧
      (WFLCG_c_refill_buffer ⟨List.replicate 16 4294967295, 5⟩).buffer[3]?
        = some ((x * m + c) % 2 ^ 32) ∧
      (WFLCG_c_refill_buffer ⟨List.replicate 16 4294967295, 5⟩).index = 0 ∧
      HasLanes (WFLCG_c_refill_buffer ⟨List.replicate 16 4294967295, 5⟩) :=
  ⟨by decide, by decide, refill_buffer_spec ⟨List.replicate 16 4294967295, 5⟩ (by decide) 3
    (by decide)⟩

/-- C2: for every state with 16 lanes and cursor `c ≤ 16`, with `S` the state itself when
`c < 16` and the refilled state when `c = 16`, `WFLCG_c_get_value` returns
`S.buffer[S.index] xor (S.buffer[S.index] >> 24)`, leaves the buffer equal to `S.buffer` and
sets the cursor to `S.index + 1`; when `c < 16` the buffer is the one of the input state. -/
theorem get_value_spec (obj : WFLCG_c) (h : HasLanes obj) (hc : obj.index ≤ 16) :
    ∃ S v, S = (if obj.index < 16 then obj else WFLCG_c_refill_buffer obj) ∧
      S.buffer[S.index]? = some v ∧
      WFLCG_c_get_value obj = some (v ^^^ (v >>> 24), ⟨S.buffer, S.index + 1⟩) ∧
      (obj.index = 16 → S.index = 0) ∧
      (obj.index < 16 → S.buffer = obj.buffer ∧ S.index = obj.index) := by
  obtain ⟨v, hv, hg⟩ := get_value_eq obj h hc
  refine ⟨refill_if_exhausted obj, v, refill_if_exhausted_eq obj hc, hv, hg, ?_, ?_⟩
  · intro h16
    rw [refill_if_exhausted_eq obj hc, if_neg (by omega)]
    rfl
  · intro hlt
    rw [refill_if_exhausted_eq obj hc, if_pos hlt]
    exact ⟨rfl, rfl⟩

/-- Witness for C2: an exhausted buffer (cursor 16), so that the refill branch is taken. -/
theorem get_value_spec_witness :
    HasLanes ⟨List.range 16, 16⟩ ∧ (WFLCG_c.mk (List.range 16) 16).index ≤ 16 ∧
    ∃ S v, S = (if (WFLCG_c.mk (List.range 16) 16).index < 16 then ⟨List.range 16, 16⟩
        else WFLCG_c_refill_buffer ⟨List.range 16, 16⟩) ∧
      S.buffer[S.index]? = some v ∧
      WFLCG_c_get_value ⟨List.range 16, 16⟩ = some (v ^^^ (v >>> 24), ⟨S.buffer, S.index + 1⟩) ∧
      ((WFLCG_c.mk (List.range 16) 16).index = 16 → S.index = 0) ∧
      ((WFLCG_c.mk (List.range 16) 16).index < 16 →
        S.buffer = (WFLCG_c.mk (List.range 16) 16).buffer ∧
        S.index = (WFLCG_c.mk (List.range 16) 16).index) :=
  ⟨by decide, by decide, get_value_spec ⟨List.range 16, 16⟩ (by decide) (by decide)⟩

/-- C3: `WFLCG_c_init_1_seed` writes `seed_step_1` applied `i + 2` times to the seed into
lane `i` (for `i < 16`) and sets the cursor to 0; lane 0 is `seed_step_1 (seed_step_1 s)`,
for the default seed 0 it is `(14567 * 2364742333 + 14567) mod 2^32`, and the first
`WFLCG_c_get_value` of the seeded generator returns `lane[0] xor (lane[0] >> 24)`. -/
theorem init_1_seed_spec (obj : WFLCG_c) (h : HasLanes obj) (s i : Nat) (hi : i < 16) :
    (WFLCG_c_init_1_seed obj s).buffer[i]? = some (seed_step_1^[i + 2] s) ∧
    (WFLCG_c_init_1_seed obj s).index = 0 ∧
    HasLanes (WFLCG_c_init_1_seed obj s) ∧
    (WFLCG_c_init_1_seed obj s).buffer[0]?
      = some (((s * 2364742333 + 14567) % 2 ^ 32 * 2364742333 + 14567) % 2 ^ 32) ∧
    (WFLCG_c_init_default obj).buffer[0]? = some ((14567 * 2364742333 + 14567) % 2 ^ 32) ∧
    (∃ lane0, (WFLCG_c_init_1_seed obj s).buffer[0]? = some lane0 ∧
      WFLCG_c_get_value (WFLCG_c_init_1_seed obj s) =
        some (lane0 ^^^ (lane0 >>> 24), ⟨(WFLCG_c_init_1_seed obj s).buffer, 1⟩)) := by
  have h0 := init_1_seed_lane obj h s 0 (by norm_num)
  have hL := init_1_seed_hasLanes obj h s
  have hidx : (WFLCG_c_init_1_seed obj s).index = 0 := rfl
  refine ⟨init_1_seed_lane obj h s i hi, hidx, hL, ?_, ?_, ?_⟩
  · rw [h0]; rfl
  · unfold WFLCG_c_init_default
    rw [init_1_seed_lane obj h 0 0 (by norm_num)]; rfl
  · obtain ⟨v, hv, hg⟩ := get_value_eq (WFLCG_c_init_1_seed obj s) hL (by rw [hidx]; omega)
    have hr : refill_if_exhausted (WFLCG_c_init_1_seed obj s) = WFLCG_c_init_1_seed obj s := by
      rw [refill_if_exhausted_eq _ (by rw [hidx]; omega), if_pos (by rw [hidx]; omega)]
    rw [hr, hidx] at hv
    rw [hr, hidx] at hg
    exact ⟨v, hv, hg⟩

/-- Witness for C3: seed 12345 on a zeroed struct, lane 7. -/
theorem init_1_seed_spec_witness :
    HasLanes ⟨List.replicate 16 0, 0⟩ ∧ 7 < 16 ∧
    ((WFLCG_c_init_1_seed ⟨List.replicate 16 0, 0⟩ 12345).buffer[7]?
      = some (seed_step_1^[7 + 2] 12345) ∧
    (WFLCG_c_init_1_seed ⟨List.replicate 16 0, 0⟩ 12345).index = 0 ∧
    HasLanes (WFLCG_c_init_1_seed ⟨List.replicate 16 0, 0⟩ 12345) ∧
    (WFLCG_c_init_1_seed ⟨List.replicate 16 0, 0⟩ 12345).buffer[0]?
      = some (((12345 * 2364742333 + 14567) % 2 ^ 32 * 2364742333 + 14567) % 2 ^ 32) ∧
    (WFLCG_c_init_default ⟨List.replicate 16 0, 0⟩).buffer[0]?
      = some ((14567 * 2364742333 + 14567) % 2 ^ 32) ∧
    (∃ lane0, (WFLCG_c_init_1_seed ⟨List.replicate 16 0, 0⟩ 12345).buffer[0]? = some lane0 ∧
      WFLCG_c_get_value (WFLCG_c_init_1_seed ⟨List.replicate 16 0, 0⟩ 12345) =
        some (lane0 ^^^ (lane0 >>> 24),
          ⟨(WFLCG_c_init_1_seed ⟨List.replicate 16 0, 0⟩ 12345).buffer, 1⟩))) :=
  ⟨by decide, by decide, init_1_seed_spec ⟨List.replicate 16 0, 0⟩ (by decide) 12345 7
    (by decide)⟩

/-- C4: `WFLCG_c_init_2_seeds` writes, for every `k < 8`, `seed_step_1` applied `k + 2`
times to `s1` into lane `2k` and `seed_step_2` applied `k + 2` times to `s2` into lane
`2k + 1`; the buffer keeps its 16 lanes (all of them written) and the cursor is 0. -/
theorem init_2_seeds_spec (obj : WFLCG_c) (h : HasLanes obj) (s1 s2 k : Nat) (hk : k < 8) :
    (WFLCG_c_init_2_seeds obj s1 s2).buffer[2 * k]? = some (seed_step_1^[k + 2] s1) ∧
    (WFLCG_c_init_2_seeds obj s1 s2).buffer[2 * k + 1]? = some (seed_step_2^[k + 2] s2) ∧
    (WFLCG_c_init_2_seeds obj s1 s2).index = 0 ∧
    HasLanes (WFLCG_c_init_2_seeds obj s1 s2) := by
  refine ⟨?_, ?_, rfl, init_2_seeds_hasLanes obj h s1 s2⟩
  · rw [init_2_seeds_lane obj h s1 s2 (2 * k) (by omega)]
    have e1 : 2 * k % 2 = 0 := by omega
    have e2 : 2 * k / 2 = k := by omega
    rw [if_pos e1, e2]
  · rw [init_2_seeds_lane obj h s1 s2 (2 * k + 1) (by omega)]
    have e1 : ¬ ((2 * k + 1) % 2 = 0) := by omega
    have e2 : (2 * k + 1) / 2 = k := by omega
    rw [if_neg e1, e2]

/-- Witness for C4: seeds 1 and 2 on a zeroed struct, the last pair of lanes (`k = 7`). -/
theorem init_2_seeds_spec_witness :
    HasLanes ⟨List.replicate 16 0, 0⟩ ∧ 7 < 8 ∧
    ((WFLCG_c_init_2_seeds ⟨List.replicate 16 0, 0⟩ 1 2).buffer[2 * 7]?
      = some (seed_step_1^[7 + 2] 1) ∧
    (WFLCG_c_init_2_seeds ⟨List.replicate 16 0, 0⟩ 1 2).buffer[2 * 7 + 1]?
      = some (seed_step_2^[7 + 2] 2) ∧
    (WFLCG_c_init_2_seeds ⟨List.replicate 16 0, 0⟩ 1 2).index = 0 ∧
    HasLanes (WFLCG_c_init_2_seeds ⟨List.replicate 16 0, 0⟩ 1 2)) :=
  ⟨by decide, by decide, init_2_seeds_spec ⟨List.replicate 16 0, 0⟩ (by decide) 1 2 7
    (by decide)⟩

/-! ## Bit patterns of the floating-point results -/

theorem or_exponent32 (y : Nat) (hy : y < 2 ^ 23) : 0x3F800000 ||| y = 0x3F800000 + y := by
  have h := Nat.mul_add_lt_is_or hy 127
  norm_num at h ⊢
  exact h.symm

theorem or_exponent64 (y : Nat) (hy : y < 2 ^ 52) :
    0x3FF0000000000000 ||| y = 0x3FF0000000000000 + y := by
  have h := Nat.mul_add_lt_is_or hy 1023
  norm_num at h ⊢
  exact h.symm

theorem float_bits_eq (x : Nat) (hx : x < 2 ^ 32) :
    x >>> 9 < 2 ^ 23 ∧ float_bits x = 0x3F800000 + x >>> 9 := by
  have h : x >>> 9 < 2 ^ 23 := by
    rw [Nat.shiftRight_eq_div_pow]; omega
  exact ⟨h, or_exponent32 _ h⟩

theorem binary32_decode_normal_one (y : Nat) (hy : y < 2 ^ 23) :
    binary32_decode (0x3F800000 + y) = IEEEValue.finite (1 + (y : ℚ) / 2 ^ 23) := by
  have hs : (0x3F800000 + y) / 2 ^ 31 % 2 = 0 := by omega
  have he : (0x3F800000 + y) / 2 ^ 23 % 2 ^ 8 = 127 := by omega
  have hm : (0x3F800000 + y) % 2 ^ 23 = y := by omega
  simp only [binary32_decode, hs, he, hm]
  norm_num

theorem binary64_decode_normal_one (y : Nat) (hy : y < 2 ^ 52) :
    binary64_decode (0x3FF0000000000000 + y) = IEEEValue.finite (1 + (y : ℚ) / 2 ^ 52) := by
  have hs : (0x3FF0000000000000 + y) / 2 ^ 63 % 2 = 0 := by omega
  have he : (0x3FF0000000000000 + y) / 2 ^ 52 % 2 ^ 11 = 1023 := by omega
  have hm : (0x3FF0000000000000 + y) % 2 ^ 52 = y := by omega
  simp only [binary64_decode, hs, he, hm]
  norm_num

theorem unit_fraction_range (y n : Nat) (hy : y < 2 ^ n) :
    (1 : ℚ) ≤ 1 + (y : ℚ) / 2 ^ n ∧ 1 + (y : ℚ) / 2 ^ n < 2 := by
  have hp : (0 : ℚ) < 2 ^ n := by positivity
  have hy' : (y : ℚ) < 2 ^ n := by exact_mod_cast hy
  constructor
  · have : (0 : ℚ) ≤ (y : ℚ) / 2 ^ n := by positivity
    linarith
  · have : (y : ℚ) / 2 ^ n < 1 := by rw [div_lt_one hp]; exact hy'
    linarith

/-! ## The extraction functions on a well-formed state -/

theorem get_float_eq (obj : WFLCG_c) (h : HasLanes obj) (hc : obj.index ≤ 16) :
    ∃ v, (refill_if_exhausted obj).buffer[(refill_if_exhausted obj).index]? = some v ∧
      WFLCG_c_get_float obj =
        some (float_bits v,
          ⟨(refill_if_exhausted obj).buffer, (refill_if_exhausted obj).index + 1⟩) := by
  have hl : (refill_if_exhausted obj).buffer.length = 16 := refill_if_exhausted_hasLanes obj h
  have hi := refill_if_exhausted_index_lt obj hc
  have hb : (refill_if_exhausted obj).index < (refill_if_exhausted obj).buffer.length := by
    omega
  refine ⟨_, List.getElem?_eq_getElem hb, ?_⟩
  have hm : ((refill_if_exhausted obj).index + 1) % 2 ^ 32 =
      (refill_if_exhausted obj).index + 1 := by omega
  simp only [WFLCG_c_get_float, List.getElem?_eq_getElem hb, hm, float_bits]

theorem get_double_eq (obj : WFLCG_c) (h : HasLanes obj) (hc : obj.index ≤ 16) :
    ∃ v, (refill_if_exhausted obj).buffer[(refill_if_exhausted obj).index]? = some v ∧
      WFLCG_c_get_double obj =
        some (0x3FF0000000000000 ||| ((fold24 v <<< 20) % 2 ^ 64),
          ⟨(refill_if_exhausted obj).buffer, (refill_if_exhausted obj).index + 1⟩) := by
  obtain ⟨v, hv, hg⟩ := get_value_eq obj h hc
  refine ⟨v, hv, ?_⟩
  simp only [WFLCG_c_get_double, hg, fold24]

theorem get_double2_eq (obj : WFLCG_c) (h : HasLanes obj)
    (hc : obj.index ≤ 14 ∨ obj.index = 16) :
    (refill_if_exhausted obj).index ≤ 14 ∧
    ∃ v1 v2, (refill_if_exhausted obj).buffer[(refill_if_exhausted obj).index]? = some v1 ∧
      (refill_if_exhausted obj).buffer[(refill_if_exhausted obj).index + 1]? = some v2 ∧
      WFLCG_c_get_double2 obj =
        some (0x3FF0000000000000 ||| (((v1 <<< 20) % 2 ^ 64) ^^^ (v2 >>> 4)),
          ⟨(refill_if_exhausted obj).buffer, (refill_if_exhausted obj).index + 2⟩) := by
  have hl : (refill_if_exhausted obj).buffer.length = 16 := refill_if_exhausted_hasLanes obj h
  have hi : (refill_if_exhausted obj).index ≤ 14 := by
    unfold refill_if_exhausted WFLCG_C_BUFFER_SIZE
    by_cases h16 : obj.index = 16
    · rw [if_pos h16]; simp [refill_index]
    · rw [if_neg h16]; omega
  have hb1 : (refill_if_exhausted obj).index < (refill_if_exhausted obj).buffer.length := by
    omega
  have hb2 : (refill_if_exhausted obj).index + 1 < (refill_if_exhausted obj).buffer.length := by
    omega
  refine ⟨hi, _, _, List.getElem?_eq_getElem hb1, List.getElem?_eq_getElem hb2, ?_⟩
  have hm1 : ((refill_if_exhausted obj).index + 1) % 2 ^ 32 =
      (refill_if_exhausted obj).index + 1 := by omega
  have hm2 : ((refill_if_exhausted obj).index + 2) % 2 ^ 32 =
      (refill_if_exhausted obj).index + 2 := by omega
  simp only [WFLCG_c_get_double2, hm1, hm2, List.getElem?_eq_getElem hb1,
    List.getElem?_eq_getElem hb2]

/-- Consecutive calls of a one-lane extraction function that do not reach the end of the
buffer return the images of the lanes from the cursor on, and only move the cursor. -/
theorem call_n_lanes (f : WFLCG_c → Option (Nat × WFLCG_c)) (g : Nat → Nat)
    (hf : ∀ (buf : List Nat) (c v : Nat), buf.length = 16 → buf[c]? = some v →
      f ⟨buf, c⟩ = some (g v, ⟨buf, c + 1⟩))
    (buf : List Nat) (hl : buf.length = 16) :
    ∀ (n c : Nat), c + n ≤ 16 →
      call_n f n ⟨buf, c⟩ = some (((buf.drop c).take n).map g, ⟨buf, c + n⟩) := by
  intro n
  induction n with
  | zero => intro c _; simp [call_n]
  | succ n ih =>
    intro c hc
    have hcl : c < buf.length := by omega
    have hstep := hf buf c buf[c] hl (List.getElem?_eq_getElem hcl)
    have hrest := ih (c + 1) (by omega)
    have hd : buf.drop c = buf[c] :: buf.drop (c + 1) := List.drop_eq_getElem_cons hcl
    simp only [call_n, hstep, hrest, hd, List.take_succ_cons, List.map_cons]
    congr 3
    omega

theorem get_value_at (buf : List Nat) (c v : Nat) (hl : buf.length = 16)
    (hv : buf[c]? = some v) :
    WFLCG_c_get_value ⟨buf, c⟩ = some (fold24 v, ⟨buf, c + 1⟩) := by
  have hc : c < 16 := by
    rw [← hl]; exact (List.getElem?_eq_some_iff.mp hv).1
  obtain ⟨w, hw, hg⟩ := get_value_eq ⟨buf, c⟩ hl (by simp only []; omega)
  rw [refill_if_exhausted_eq _ (by simp only []; omega), if_pos hc] at hw hg
  simp only [] at hw hg
  rw [hv] at hw
  injection hw with hw
  rw [hg, ← hw]; rfl

theorem get_float_at (buf : List Nat) (c v : Nat) (hl : buf.length = 16)
    (hv : buf[c]? = some v) :
    WFLCG_c_get_float ⟨buf, c⟩ = some (float_bits v, ⟨buf, c + 1⟩) := by
  have hc : c < 16 := by
    rw [← hl]; exact (List.getElem?_eq_some_iff.mp hv).1
  obtain ⟨w, hw, hg⟩ := get_float_eq ⟨buf, c⟩ hl (by simp only []; omega)
  rw [refill_if_exhausted_eq _ (by simp only []; omega), if_pos hc] at hw hg
  simp only [] at hw hg
  rw [hv] at hw
  injection hw with hw
  rw [hg, ← hw]

/-! ## The cursor invariant -/

theorem apply_op_inv (op : Op) (obj : WFLCG_c) (h : HasLanes obj) (hc : obj.index ≤ 16)
    (hd : op = Op.nextDouble2 → obj.index ≠ 15) :
    ∃ obj1, apply_op op obj = some obj1 ∧ HasLanes obj1 ∧ obj1.index ≤ 16 := by
  have hS := refill_if_exhausted_hasLanes obj h
  have hi := refill_if_exhausted_index_lt obj hc
  cases op with
  | refill => exact ⟨_, rfl, refill_hasLanes obj h, by simp [refill_index]⟩
  | nextU32 =>
    obtain ⟨v, _, hg⟩ := get_value_eq obj h hc
    exact ⟨⟨(refill_if_exhausted obj).buffer, (refill_if_exhausted obj).index + 1⟩,
      by simp only [apply_op, hg, Option.map_some'], hS, by simp only []; omega⟩
  | nextFloat =>
    obtain ⟨v, _, hg⟩ := get_float_eq obj h hc
    exact ⟨⟨(refill_if_exhausted obj).buffer, (refill_if_exhausted obj).index + 1⟩,
      by simp only [apply_op, hg, Option.map_some'], hS, by simp only []; omega⟩
  | nextDouble =>
    obtain ⟨v, _, hg⟩ := get_double_eq obj h hc
    exact ⟨⟨(refill_if_exhausted obj).buffer, (refill_if_exhausted obj).index + 1⟩,
      by simp only [apply_op, hg, Option.map_some'], hS, by simp only []; omega⟩
  | nextDouble2 =>
    have h15 := hd rfl
    obtain ⟨hi2, v1, v2, _, _, hg⟩ := get_double2_eq obj h (by omega)
    exact ⟨⟨(refill_if_exhausted obj).buffer, (refill_if_exhausted obj).index + 2⟩,
      by simp only [apply_op, hg, Option.map_some'], hS, by simp only []; omega⟩

theorem run_trace_inv (ops : List Op) :
    ∀ obj : WFLCG_c, HasLanes obj → obj.index ≤ 16 → double2_contract ops obj →
      ∃ tr, run_trace ops obj = some tr ∧ tr.length = ops.length ∧
        ∀ st ∈ tr, HasLanes st ∧ st.index ≤ 16 := by
  induction ops with
  | nil => intro obj _ _ _; exact ⟨[], rfl, rfl, by simp⟩
  | cons op ops ih =>
    intro obj h hc hd
    obtain ⟨hd1, hd2⟩ := hd
    obtain ⟨obj1, h1, hl1, hc1⟩ := apply_op_inv op obj h hc hd1
    rw [h1] at hd2
    obtain ⟨tr, htr, hlen, hall⟩ := ih obj1 hl1 hc1 hd2
    refine ⟨obj1 :: tr, by simp only [run_trace, h1, htr, Option.map_some'], by simp [hlen], ?_⟩
    intro st hst
    rcases List.mem_cons.mp hst with rfl | hst
    · exact ⟨hl1, hc1⟩
    · exact hall st hst

theorem seeded_index (obj obj0 : WFLCG_c) (s s1 s2 : Nat)
    (h0 : obj0 = WFLCG_c_init_1_seed obj s ∨ obj0 = WFLCG_c_init_2_seeds obj s1 s2 ∨
      obj0 = WFLCG_c_init_default obj) : obj0.index = 0 := by
  rcases h0 with rfl | rfl | rfl <;> rfl

theorem seeded_hasLanes (obj obj0 : WFLCG_c) (h : HasLanes obj) (s s1 s2 : Nat)
    (h0 : obj0 = WFLCG_c_init_1_seed obj s ∨ obj0 = WFLCG_c_init_2_seeds obj s1 s2 ∨
      obj0 = WFLCG_c_init_default obj) : HasLanes obj0 := by
  rcases h0 with rfl | rfl | rfl
  · exact init_1_seed_hasLanes obj h s
  · exact init_2_seeds_hasLanes obj h s1 s2
  · exact init_1_seed_hasLanes obj h 0

/-- C5 (as amended): for every generator created by one of the three seeding operations and
every finite sequence of refill, nextU32, nextFloat, nextDouble and nextDouble2 in which
nextDouble2 is never called with the cursor at 15, no operation reads a lane outside the
buffer and the cursor is in [0,16] after every operation. -/
theorem cursor_invariant (obj obj0 : WFLCG_c) (h : HasLanes obj) (s s1 s2 : Nat)
    (h0 : obj0 = WFLCG_c_init_1_seed obj s ∨ obj0 = WFLCG_c_init_2_seeds obj s1 s2 ∨
      obj0 = WFLCG_c_init_default obj)
    (ops : List Op) (hd : double2_contract ops obj0) :
    ∃ tr, run_trace ops obj0 = some tr ∧ tr.length = ops.length ∧
      ∀ st ∈ tr, HasLanes st ∧ st.index ≤ 16 :=
  run_trace_inv ops obj0 (seeded_hasLanes obj obj0 h s s1 s2 h0)
    (by rw [seeded_index obj obj0 s s1 s2 h0]; omega) hd

/-- Witness for C5: a two-seed generator driven through all five operations. -/
theorem cursor_invariant_witness :
    HasLanes zero_state ∧
    (WFLCG_c_init_2_seeds zero_state 1 2 = WFLCG_c_init_1_seed zero_state 0 ∨
      WFLCG_c_init_2_seeds zero_state 1 2 = WFLCG_c_init_2_seeds zero_state 1 2 ∨
      WFLCG_c_init_2_seeds zero_state 1 2 = WFLCG_c_init_default zero_state) ∧
    double2_contract
      [Op.nextU32, Op.nextDouble2, Op.nextFloat, Op.refill, Op.nextDouble, Op.nextDouble2]
      (WFLCG_c_init_2_seeds zero_state 1 2) ∧
    ∃ tr, run_trace
        [Op.nextU32, Op.nextDouble2, Op.nextFloat, Op.refill, Op.nextDouble, Op.nextDouble2]
        (WFLCG_c_init_2_seeds zero_state 1 2) = some tr ∧
      tr.length =
        [Op.nextU32, Op.nextDouble2, Op.nextFloat, Op.refill, Op.nextDouble,
          Op.nextDouble2].length ∧
      ∀ st ∈ tr, HasLanes st ∧ st.index ≤ 16 :=
  ⟨by decide, Or.inr (Or.inl rfl), by decide,
    cursor_invariant zero_state (WFLCG_c_init_2_seeds zero_state 1 2) (by decide) 0 1 2
      (Or.inr (Or.inl rfl))
      [Op.nextU32, Op.nextDouble2, Op.nextFloat, Op.refill, Op.nextDouble, Op.nextDouble2]
      (by decide)⟩

/-- C5 as stated fails: on the default generator, one nextU32 followed by seven nextDouble2
leaves the cursor at 15 (cursors 1, 3, ..., 15 after the eight operations), and an eighth
nextDouble2 then reads lane index 16, outside the 16-lane buffer. -/
theorem cursor_invariant_counterexample :
    (run_trace (Op.nextU32 :: List.replicate 7 Op.nextDouble2)
      (WFLCG_c_init_default zero_state)).map (List.map WFLCG_c.index)
        = some [1, 3, 5, 7, 9, 11, 13, 15] ∧
    run_trace (Op.nextU32 :: List.replicate 8 Op.nextDouble2)
      (WFLCG_c_init_default zero_state) = none := by
  decide

/-! ## The refill boundary -/

theorem call_n_append (f : WFLCG_c → Option (Nat × WFLCG_c)) :
    ∀ (n m : Nat) (obj obj1 obj2 : WFLCG_c) (vs ws : List Nat),
      call_n f n obj = some (vs, obj1) → call_n f m obj1 = some (ws, obj2) →
      call_n f (n + m) obj = some (vs ++ ws, obj2) := by
  intro n
  induction n with
  | zero =>
    intro m obj obj1 obj2 vs ws h1 h2
    simp only [call_n, Option.some.injEq, Prod.mk.injEq] at h1
    obtain ⟨rfl, rfl⟩ := h1
    simpa using h2
  | succ n ih =>
    intro m obj obj1 obj2 vs ws h1 h2
    simp only [call_n] at h1
    cases hf : f obj with
    | none => simp [hf] at h1
    | some r =>
      obtain ⟨v, o⟩ := r
      simp only [hf] at h1
      cases hr : call_n f n o with
      | none => simp [hr] at h1
      | some r2 =>
        obtain ⟨us, o2⟩ := r2
        simp only [hr, Option.some.injEq, Prod.mk.injEq] at h1
        obtain ⟨rfl, rfl⟩ := h1
        have := ih m o o2 obj2 us ws hr h2
        have e : n + 1 + m = (n + m) + 1 := by omega
        rw [e]
        simp only [call_n, hf, this, List.cons_append]

/-- C6: for a generator fresh from any of the three seeding operations, the first `n ≤ 16`
calls of `WFLCG_c_get_value` return the folds of lanes `0 .. n-1`, leave the buffer as seeded
and the cursor at `n` (16 after sixteen calls); the 17th call performs one refill: it returns
the fold of lane 0 of the refilled buffer, the buffer is the seeded buffer refilled once and
the cursor is 1. -/
theorem refill_boundary (obj obj0 : WFLCG_c) (h : HasLanes obj) (s s1 s2 : Nat)
    (h0 : obj0 = WFLCG_c_init_1_seed obj s ∨ obj0 = WFLCG_c_init_2_seeds obj s1 s2 ∨
      obj0 = WFLCG_c_init_default obj)
    (n : Nat) (hn : n ≤ 16) :
    call_n WFLCG_c_get_value n obj0 = some ((obj0.buffer.take n).map fold24, ⟨obj0.buffer, n⟩) ∧
    call_n WFLCG_c_get_value 16 obj0 = some (obj0.buffer.map fold24, ⟨obj0.buffer, 16⟩) ∧
    ∃ r0, (WFLCG_c_refill_buffer obj0).buffer[0]? = some r0 ∧
      WFLCG_c_get_value ⟨obj0.buffer, 16⟩
        = some (fold24 r0, ⟨(WFLCG_c_refill_buffer obj0).buffer, 1⟩) ∧
      call_n WFLCG_c_get_value 17 obj0
        = some (obj0.buffer.map fold24 ++ [fold24 r0],
            ⟨(WFLCG_c_refill_buffer obj0).buffer, 1⟩) := by
  have hl : obj0.buffer.length = 16 := seeded_hasLanes obj obj0 h s s1 s2 h0
  have hi : obj0.index = 0 := seeded_index obj obj0 s s1 s2 h0
  have hobj : obj0 = ⟨obj0.buffer, 0⟩ := by rw [← hi]
  have key := call_n_lanes WFLCG_c_get_value fold24 get_value_at obj0.buffer hl
  have h16 : call_n WFLCG_c_get_value 16 obj0
      = some (obj0.buffer.map fold24, ⟨obj0.buffer, 16⟩) := by
    have := key 16 0 (by omega)
    rw [← hobj] at this
    rw [this, List.drop_zero, List.take_of_length_le (by omega)]
  have hex : (WFLCG_c.mk obj0.buffer 16).index ≤ 16 := Nat.le_refl 16
  obtain ⟨r0, hr0, hg⟩ := get_value_eq ⟨obj0.buffer, 16⟩ hl hex
  have hrie : refill_if_exhausted ⟨obj0.buffer, 16⟩ = WFLCG_c_refill_buffer obj0 := by
    rw [refill_if_exhausted_eq _ hex]
    rfl
  rw [hrie] at hr0 hg
  have hg' : WFLCG_c_get_value ⟨obj0.buffer, 16⟩
      = some (fold24 r0, ⟨(WFLCG_c_refill_buffer obj0).buffer, 1⟩) := hg
  refine ⟨?_, h16, r0, hr0, hg', ?_⟩
  · have := key n 0 (by omega)
    rw [← hobj] at this
    rw [this, List.drop_zero, Nat.zero_add]
  · have h1 : call_n WFLCG_c_get_value 1 ⟨obj0.buffer, 16⟩
        = some ([fold24 r0], ⟨(WFLCG_c_refill_buffer obj0).buffer, 1⟩) := by
      simp only [call_n, hg']
    exact call_n_append WFLCG_c_get_value 16 1 obj0 _ _ _ _ h16 h1

/-- Witness for C6: the default generator, after 5 calls. -/
theorem refill_boundary_witness :
    HasLanes zero_state ∧
    (WFLCG_c_init_default zero_state = WFLCG_c_init_1_seed zero_state 0 ∨
      WFLCG_c_init_default zero_state = WFLCG_c_init_2_seeds zero_state 0 0 ∨
      WFLCG_c_init_default zero_state = WFLCG_c_init_default zero_state) ∧
    5 ≤ 16 ∧
    (call_n WFLCG_c_get_value 5 (WFLCG_c_init_default zero_state)
      = some (((WFLCG_c_init_default zero_state).buffer.take 5).map fold24,
          ⟨(WFLCG_c_init_default zero_state).buffer, 5⟩) ∧
    call_n WFLCG_c_get_value 16 (WFLCG_c_init_default zero_state)
      = some ((WFLCG_c_init_default zero_state).buffer.map fold24,
          ⟨(WFLCG_c_init_default zero_state).buffer, 16⟩) ∧
    ∃ r0, (WFLCG_c_refill_buffer (WFLCG_c_init_default zero_state)).buffer[0]? = some r0 ∧
      WFLCG_c_get_value ⟨(WFLCG_c_init_default zero_state).buffer, 16⟩
        = some (fold24 r0,
            ⟨(WFLCG_c_refill_buffer (WFLCG_c_init_default zero_state)).buffer, 1⟩) ∧
      call_n WFLCG_c_get_value 17 (WFLCG_c_init_default zero_state)
        = some ((WFLCG_c_init_default zero_state).buffer.map fold24 ++ [fold24 r0],
            ⟨(WFLCG_c_refill_buffer (WFLCG_c_init_default zero_state)).buffer, 1⟩)) :=
  ⟨by decide, Or.inr (Or.inr rfl), by decide,
    refill_boundary zero_state (WFLCG_c_init_default zero_state) (by decide) 0 0 0
      (Or.inr (Or.inr rfl)) 5 (by decide)⟩

/-! ## Range of the floating-point results -/

theorem lane_lt_of_getElem? (obj : WFLCG_c) (hu : LanesU32 obj) (i v : Nat)
    (hv : obj.buffer[i]? = some v) : v < 2 ^ 32 :=
  hu v (List.getElem?_mem hv)

/-- C7: for every buffer of 16 `uint32_t` lanes and every cursor in [0,16], the bit pattern
produced by `WFLCG_c_get_float` lies in [0x3F800000, 0x3FFFFFFF]: its sign bit is 0 and its
biased exponent field is 127; its IEEE-754 binary32 reading is the finite number
`1 + mantissa / 2^23`, which is at least 1 and below 2 (so neither NaN, infinite nor 2.0). -/
theorem get_float_range (obj : WFLCG_c) (h : HasLanes obj) (hu : LanesU32 obj)
    (hc : obj.index ≤ 16) :
    ∃ bits obj1 q, WFLCG_c_get_float obj = some (bits, obj1) ∧
      0x3F800000 ≤ bits ∧ bits ≤ 0x3FFFFFFF ∧
      bits >>> 31 = 0 ∧ (bits >>> 23) % 2 ^ 8 = 127 ∧
      binary32_decode bits = IEEEValue.finite q ∧
      q = (1 : ℚ) + ((bits % 2 ^ 23 : Nat) : ℚ) / (2 : ℚ) ^ 23 ∧ 1 ≤ q ∧ q < 2 := by
  obtain ⟨v, hv, hg⟩ := get_float_eq obj h hc
  have hv32 : v < 2 ^ 32 :=
    lane_lt_of_getElem? _ (refill_if_exhausted_lanesU32 obj h hu) _ v hv
  obtain ⟨hy, hb⟩ := float_bits_eq v hv32
  have hm : (0x3F800000 + v >>> 9) % 2 ^ 23 = v >>> 9 := by omega
  have hrange := unit_fraction_range (v >>> 9) 23 hy
  refine ⟨float_bits v, _, (1 : ℚ) + ((v >>> 9 : Nat) : ℚ) / (2 : ℚ) ^ 23, hg, ?_, ?_, ?_, ?_, ?_, ?_,
    hrange.1, hrange.2⟩
  · rw [hb]; omega
  · rw [hb]; omega
  · rw [hb, Nat.shiftRight_eq_div_pow]; omega
  · rw [hb, Nat.shiftRight_eq_div_pow]; omega
  · rw [hb]; exact binary32_decode_normal_one _ hy
  · rw [hb, hm]

/-- Witness for C7: the all-ones buffer (largest mantissa) at cursor 3. -/
theorem get_float_range_witness :
    HasLanes ⟨List.replicate 16 4294967295, 3⟩ ∧ LanesU32 ⟨List.replicate 16 4294967295, 3⟩ ∧
    (WFLCG_c.mk (List.replicate 16 4294967295) 3).index ≤ 16 ∧
    ∃ bits obj1 q, WFLCG_c_get_float ⟨List.replicate 16 4294967295, 3⟩ = some (bits, obj1) ∧
      0x3F800000 ≤ bits ∧ bits ≤ 0x3FFFFFFF ∧
      bits >>> 31 = 0 ∧ (bits >>> 23) % 2 ^ 8 = 127 ∧
      binary32_decode bits = IEEEValue.finite q ∧
      q = (1 : ℚ) + ((bits % 2 ^ 23 : Nat) : ℚ) / (2 : ℚ) ^ 23 ∧ 1 ≤ q ∧ q < 2 :=
  ⟨by decide, by decide, by decide,
    get_float_range ⟨List.replicate 16 4294967295, 3⟩ (by decide) (by decide) (by decide)⟩

theorem fold24_lt (v : Nat) (hv : v < 2 ^ 32) : fold24 v < 2 ^ 32 := by
  have h1 : v >>> 24 < 2 ^ 32 := by
    rw [Nat.shiftRight_eq_div_pow]; omega
  exact Nat.xor_lt_two_pow hv h1

theorem shift20_lt (v : Nat) (hv : v < 2 ^ 32) :
    v <<< 20 < 2 ^ 52 ∧ (v <<< 20) % 2 ^ 64 = v <<< 20 := by
  rw [Nat.shiftLeft_eq]
  omega

theorem double2_mantissa_lt (v1 v2 : Nat) (h1 : v1 < 2 ^ 32) (h2 : v2 < 2 ^ 32) :
    (v1 <<< 20) ^^^ (v2 >>> 4) < 2 ^ 52 := by
  have a := (shift20_lt v1 h1).1
  have b : v2 >>> 4 < 2 ^ 52 := by
    rw [Nat.shiftRight_eq_div_pow]; omega
  exact Nat.xor_lt_two_pow a b

theorem double_pattern (m : Nat) (hm : m < 2 ^ 52) :
    0x3FF0000000000000 ||| m = 0x3FF0000000000000 + m ∧
    0x3FF0000000000000 ≤ (0x3FF0000000000000 ||| m) ∧
    (0x3FF0000000000000 ||| m) ≤ 0x3FFFFFFFFFFFFFFF ∧
    (0x3FF0000000000000 ||| m) >>> 63 = 0 ∧
    ((0x3FF0000000000000 ||| m) >>> 52) % 2 ^ 11 = 1023 ∧
    binary64_decode (0x3FF0000000000000 ||| m) = IEEEValue.finite (1 + (m : ℚ) / 2 ^ 52) ∧
    (1 : ℚ) ≤ 1 + (m : ℚ) / 2 ^ 52 ∧ 1 + (m : ℚ) / 2 ^ 52 < 2 := by
  have hb := or_exponent64 m hm
  have hr := unit_fraction_range m 52 hm
  refine ⟨hb, ?_, ?_, ?_, ?_, ?_, hr.1, hr.2⟩
  · rw [hb]; omega
  · rw [hb]; omega
  · rw [hb, Nat.shiftRight_eq_div_pow]; omega
  · rw [hb, Nat.shiftRight_eq_div_pow]; omega
  · rw [hb]; exact binary64_decode_normal_one m hm


theorem binary64InUnitRange_of_lt (m : Nat) (hm : m < 2 ^ 52) :
    Binary64InUnitRange (0x3FF0000000000000 + m) := by
  obtain ⟨hb, h1, h2, h3, h4, h5, h6, h7⟩ := double_pattern m hm
  rw [hb] at h1 h2 h3 h4 h5
  have hmod : (0x3FF0000000000000 + m) % 2 ^ 52 = m := by omega
  refine ⟨h1, h2, h3, h4, (1 : ℚ) + (m : ℚ) / (2 : ℚ) ^ 52, h5, ?_, h6, h7⟩
  rw [hmod]

/-- C8: for every buffer of 16 `uint32_t` lanes, (a) at every cursor in [0,16] the mantissa
expression `v << 20` of `WFLCG_c_get_double` (`v` the value `WFLCG_c_get_value` returns) is
below 2^52, so the pattern is `0x3FF0000000000000 + (v << 20)` with no carry into the
exponent, and (b) at every cursor `≤ 14` or `= 16` the mantissa expression
`(v1 << 20) xor (v2 >> 4)` of `WFLCG_c_get_double2` is below 2^52 likewise; in both cases
the pattern has sign bit 0, exponent field 1023 and reads as `1 + mantissa / 2^52` in [1, 2). -/
theorem get_double_range (obj : WFLCG_c) (h : HasLanes obj) (hu : LanesU32 obj)
    (hc : obj.index ≤ 16)
    (obj' : WFLCG_c) (h' : HasLanes obj') (hu' : LanesU32 obj')
    (hc' : obj'.index ≤ 14 ∨ obj'.index = 16) :
    (∃ v bits obj1, (WFLCG_c_get_value obj).map Prod.fst = some v ∧ v <<< 20 < 2 ^ 52 ∧
      WFLCG_c_get_double obj = some (bits, obj1) ∧
      bits = 0x3FF0000000000000 + v <<< 20 ∧ Binary64InUnitRange bits) ∧
    (∃ S v1 v2 bits obj1,
      S = (if obj'.index < 16 then obj' else WFLCG_c_refill_buffer obj') ∧
      S.buffer[S.index]? = some v1 ∧ S.buffer[S.index + 1]? = some v2 ∧
      (v1 <<< 20) ^^^ (v2 >>> 4) < 2 ^ 52 ∧
      WFLCG_c_get_double2 obj' = some (bits, obj1) ∧
      bits = 0x3FF0000000000000 + ((v1 <<< 20) ^^^ (v2 >>> 4)) ∧
      Binary64InUnitRange bits) := by
  constructor
  · obtain ⟨v, hv, hg⟩ := get_value_eq obj h hc
    obtain ⟨w, hw, hd⟩ := get_double_eq obj h hc
    rw [hv] at hw
    injection hw with hw
    subst hw
    have hv32 : v < 2 ^ 32 :=
      lane_lt_of_getElem? _ (refill_if_exhausted_lanesU32 obj h hu) _ v hv
    have hf := fold24_lt v hv32
    obtain ⟨hs, hsm⟩ := shift20_lt (fold24 v) hf
    refine ⟨fold24 v, _, _, by rw [hg]; rfl, hs, hd, ?_, ?_⟩
    · rw [hsm]; exact (double_pattern _ hs).1
    · rw [hsm, (double_pattern _ hs).1]; exact binary64InUnitRange_of_lt _ hs
  · obtain ⟨_, v1, v2, hv1, hv2, hg⟩ := get_double2_eq obj' h' hc'
    have hL := refill_if_exhausted_lanesU32 obj' h' hu'
    have h1 : v1 < 2 ^ 32 := lane_lt_of_getElem? _ hL _ v1 hv1
    have h2 : v2 < 2 ^ 32 := lane_lt_of_getElem? _ hL _ v2 hv2
    have hm := double2_mantissa_lt v1 v2 h1 h2
    have hsm := (shift20_lt v1 h1).2
    have hcle : obj'.index ≤ 16 := by omega
    refine ⟨refill_if_exhausted obj', v1, v2, _, _, refill_if_exhausted_eq obj' hcle, hv1, hv2,
      hm, hg, ?_, ?_⟩
    · rw [hsm]; exact (double_pattern _ hm).1
    · rw [hsm, (double_pattern _ hm).1]; exact binary64InUnitRange_of_lt _ hm

/-- Witness for C8: the all-ones buffer (largest mantissas), `WFLCG_c_get_double` at cursor 16
and `WFLCG_c_get_double2` at cursor 14. -/
theorem get_double_range_witness :
    HasLanes ⟨List.replicate 16 4294967295, 16⟩ ∧
    LanesU32 ⟨List.replicate 16 4294967295, 16⟩ ∧
    (WFLCG_c.mk (List.replicate 16 4294967295) 16).index ≤ 16 ∧
    HasLanes ⟨List.replicate 16 4294967295, 14⟩ ∧
    LanesU32 ⟨List.replicate 16 4294967295, 14⟩ ∧
    ((WFLCG_c.mk (List.replicate 16 4294967295) 14).index ≤ 14 ∨
      (WFLCG_c.mk (List.replicate 16 4294967295) 14).index = 16) ∧
    ((∃ v bits obj1,
      (WFLCG_c_get_value ⟨List.replicate 16 4294967295, 16⟩).map Prod.fst = some v ∧
      v <<< 20 < 2 ^ 52 ∧
      WFLCG_c_get_double ⟨List.replicate 16 4294967295, 16⟩ = some (bits, obj1) ∧
      bits = 0x3FF0000000000000 + v <<< 20 ∧ Binary64InUnitRange bits) ∧
    (∃ S v1 v2 bits obj1,
      S = (if (WFLCG_c.mk (List.replicate 16 4294967295) 14).index < 16
        then ⟨List.replicate 16 4294967295, 14⟩
        else WFLCG_c_refill_buffer ⟨List.replicate 16 4294967295, 14⟩) ∧
      S.buffer[S.index]? = some v1 ∧ S.buffer[S.index + 1]? = some v2 ∧
      (v1 <<< 20) ^^^ (v2 >>> 4) < 2 ^ 52 ∧
      WFLCG_c_get_double2 ⟨List.replicate 16 4294967295, 14⟩ = some (bits, obj1) ∧
      bits = 0x3FF0000000000000 + ((v1 <<< 20) ^^^ (v2 >>> 4)) ∧
      Binary64InUnitRange bits)) :=
  ⟨by decide, by decide, by decide, by decide, by decide, by decide,
    get_double_range ⟨List.replicate 16 4294967295, 16⟩ (by decide) (by decide) (by decide)
      ⟨List.replicate 16 4294967295, 14⟩ (by decide) (by decide) (by decide)⟩

/-! ## Direct buffer access and seed order -/

/-- C9: for every state with 16 lanes and cursor 0 and every `i < 16`,
`WFLCG_c_buffer_element_float` at index `i` returns the bit pattern that the `i`-th (0-based)
of 16 consecutive `WFLCG_c_get_float` calls from that state returns, and returns the state
unchanged (same buffer, same cursor). -/
theorem buffer_element_float_equiv (obj : WFLCG_c) (h : HasLanes obj) (hc : obj.index = 0)
    (i : Nat) (hi : i < 16) :
    ∃ bits outs obj1, WFLCG_c_buffer_element_float obj i = some (bits, obj) ∧
      call_n WFLCG_c_get_float 16 obj = some (outs, obj1) ∧ outs.length = 16 ∧
      outs[i]? = some bits := by
  have hl : obj.buffer.length = 16 := h
  have hib : i < obj.buffer.length := by omega
  have hobj : obj = ⟨obj.buffer, 0⟩ := by rw [← hc]
  have key := call_n_lanes WFLCG_c_get_float float_bits get_float_at obj.buffer hl 16 0
    (by omega)
  rw [← hobj, List.drop_zero, List.take_of_length_le (by omega)] at key
  refine ⟨float_bits obj.buffer[i], _, _, ?_, key, by simp [hl], ?_⟩
  · simp only [WFLCG_c_buffer_element_float, List.getElem?_eq_getElem hib, float_bits]
  · simp [List.getElem?_map, List.getElem?_eq_getElem hib]

/-- Witness for C9: the freshly seeded default generator, lane 9. -/
theorem buffer_element_float_equiv_witness :
    HasLanes (WFLCG_c_init_default zero_state) ∧
    (WFLCG_c_init_default zero_state).index = 0 ∧ 9 < 16 ∧
    ∃ bits outs obj1,
      WFLCG_c_buffer_element_float (WFLCG_c_init_default zero_state) 9
        = some (bits, WFLCG_c_init_default zero_state) ∧
      call_n WFLCG_c_get_float 16 (WFLCG_c_init_default zero_state) = some (outs, obj1) ∧
      outs.length = 16 ∧ outs[9]? = some bits :=
  ⟨by decide, by decide, by decide,
    buffer_element_float_equiv (WFLCG_c_init_default zero_state) (by decide) (by decide) 9
      (by decide)⟩

theorem seed_step_1_injOn (x y : Nat) (hx : x < 2 ^ 32) (hy : y < 2 ^ 32)
    (hxy : seed_step_1 x = seed_step_1 y) : x = y := by
  have h1 : (seed_step_1 x + (2 ^ 32 - 14567)) * 1582706837 % 2 ^ 32 = x := by
    unfold seed_step_1
    omega
  have h2 : (seed_step_1 y + (2 ^ 32 - 14567)) * 1582706837 % 2 ^ 32 = y := by
    unfold seed_step_1
    omega
  rw [← h1, ← h2, hxy]

theorem seed_step_1_lt (x : Nat) : seed_step_1 x < 2 ^ 32 :=
  Nat.mod_lt _ (by norm_num)

/-- C10: for all 32-bit seeds `s1 ≠ s2`, the lane buffer produced by
`WFLCG_c_init_2_seeds` with `(s1, s2)` differs from the one produced with `(s2, s1)`; lane 0
already differs. -/
theorem two_seed_sensitivity (obj obj' : WFLCG_c) (h : HasLanes obj) (h' : HasLanes obj')
    (s1 s2 : Nat) (h1 : s1 < 2 ^ 32) (h2 : s2 < 2 ^ 32) (hne : s1 ≠ s2) :
    (WFLCG_c_init_2_seeds obj s1 s2).buffer[0]? ≠ (WFLCG_c_init_2_seeds obj' s2 s1).buffer[0]? ∧
    (WFLCG_c_init_2_seeds obj s1 s2).buffer ≠ (WFLCG_c_init_2_seeds obj' s2 s1).buffer := by
  have key : (WFLCG_c_init_2_seeds obj s1 s2).buffer[0]? ≠
      (WFLCG_c_init_2_seeds obj' s2 s1).buffer[0]? := by
    rw [init_2_seeds_lane obj h s1 s2 0 (by norm_num),
      init_2_seeds_lane obj' h' s2 s1 0 (by norm_num)]
    intro heq
    simp only [Nat.zero_mod, if_true, Nat.zero_div, Nat.zero_add, Option.some.injEq,
      Function.iterate_succ, Function.iterate_zero, Function.comp_apply, id_eq] at heq
    exact hne (seed_step_1_injOn s1 s2 h1 h2
      (seed_step_1_injOn _ _ (seed_step_1_lt s1) (seed_step_1_lt s2) heq))
  exact ⟨key, fun hb => key (by rw [hb])⟩

/-- Witness for C10: seeds 1 and 2. -/
theorem two_seed_sensitivity_witness :
    HasLanes zero_state ∧ HasLanes zero_state ∧ 1 < 2 ^ 32 ∧ 2 < 2 ^ 32 ∧ 1 ≠ 2 ∧
    ((WFLCG_c_init_2_seeds zero_state 1 2).buffer[0]?
      ≠ (WFLCG_c_init_2_seeds zero_state 2 1).buffer[0]? ∧
    (WFLCG_c_init_2_seeds zero_state 1 2).buffer
      ≠ (WFLCG_c_init_2_seeds zero_state 2 1).buffer) :=
  ⟨by decide, by decide, by decide, by decide, by decide,
    two_seed_sensitivity zero_state zero_state (by decide) (by decide) 1 2 (by decide)
      (by decide) (by decide)⟩

/-! ## nextFloat and nextDouble -/

/-- C12: for every state with 16 `uint32_t` lanes and cursor `c ≤ 16`, with `S` the state
itself when `c < 16` and the refilled state when `c = 16`, `WFLCG_c_get_float` returns the
pattern `0x3F800000 | (S.buffer[S.index] >> 9)` built from the raw lane (no XOR-fold), whose
23 mantissa bits are the top 23 bits of the lane and whose upper bits are those of
`0x3F800000`; the buffer is left equal to `S.buffer` and the cursor becomes `S.index + 1`. -/
theorem get_float_spec (obj : WFLCG_c) (h : HasLanes obj) (hu : LanesU32 obj)
    (hc : obj.index ≤ 16) :
    ∃ S v, S = (if obj.index < 16 then obj else WFLCG_c_refill_buffer obj) ∧
      S.buffer[S.index]? = some v ∧
      WFLCG_c_get_float obj = some (0x3F800000 ||| (v >>> 9), ⟨S.buffer, S.index + 1⟩) ∧
      (0x3F800000 ||| (v >>> 9)) % 2 ^ 23 = v / 2 ^ 9 ∧
      (0x3F800000 ||| (v >>> 9)) / 2 ^ 23 = 0x3F800000 / 2 ^ 23 ∧
      (obj.index = 16 → S.index = 0) ∧
      (obj.index < 16 → S.buffer = obj.buffer ∧ S.index = obj.index) := by
  obtain ⟨v, hv, hg⟩ := get_float_eq obj h hc
  have hv32 : v < 2 ^ 32 :=
    lane_lt_of_getElem? _ (refill_if_exhausted_lanesU32 obj h hu) _ v hv
  obtain ⟨hy, hb⟩ := float_bits_eq v hv32
  unfold float_bits at hb hg
  refine ⟨refill_if_exhausted obj, v, refill_if_exhausted_eq obj hc, hv, hg, ?_, ?_, ?_, ?_⟩
  · rw [hb, Nat.shiftRight_eq_div_pow]; omega
  · rw [hb]; omega
  · intro h16
    rw [refill_if_exhausted_eq obj hc, if_neg (by omega)]
    rfl
  · intro hlt
    rw [refill_if_exhausted_eq obj hc, if_pos hlt]
    exact ⟨rfl, rfl⟩

/-- Witness for C12: an exhausted all-ones buffer, so that the refill branch is taken. -/
theorem get_float_spec_witness :
    HasLanes ⟨List.replicate 16 4294967295, 16⟩ ∧
    LanesU32 ⟨List.replicate 16 4294967295, 16⟩ ∧
    (WFLCG_c.mk (List.replicate 16 4294967295) 16).index ≤ 16 ∧
    ∃ S v, S = (if (WFLCG_c.mk (List.replicate 16 4294967295) 16).index < 16
        then ⟨List.replicate 16 4294967295, 16⟩
        else WFLCG_c_refill_buffer ⟨List.replicate 16 4294967295, 16⟩) ∧
      S.buffer[S.index]? = some v ∧
      WFLCG_c_get_float ⟨List.replicate 16 4294967295, 16⟩
        = some (0x3F800000 ||| (v >>> 9), ⟨S.buffer, S.index + 1⟩) ∧
      (0x3F800000 ||| (v >>> 9)) % 2 ^ 23 = v / 2 ^ 9 ∧
      (0x3F800000 ||| (v >>> 9)) / 2 ^ 23 = 0x3F800000 / 2 ^ 23 ∧
      ((WFLCG_c.mk (List.replicate 16 4294967295) 16).index = 16 → S.index = 0) ∧
      ((WFLCG_c.mk (List.replicate 16 4294967295) 16).index < 16 →
        S.buffer = (WFLCG_c.mk (List.replicate 16 4294967295) 16).buffer ∧
        S.index = (WFLCG_c.mk (List.replicate 16 4294967295) 16).index) :=
  ⟨by decide, by decide, by decide,
    get_float_spec ⟨List.replicate 16 4294967295, 16⟩ (by decide) (by decide) (by decide)⟩

/-- C13: for every state with 16 `uint32_t` lanes and cursor `≤ 16`, `WFLCG_c_get_double`
returns the pattern `0x3FF0000000000000 | (u << 20)` where `u` is the value
`WFLCG_c_get_value` returns on the same state; the shift loses no bit of `u` (bits 20..51 of
the result are `u`), the low 20 bits of the result are zero, and the state after the call is
the state after `WFLCG_c_get_value` (one lane consumed). -/
theorem get_double_spec (obj : WFLCG_c) (h : HasLanes obj) (hu : LanesU32 obj)
    (hc : obj.index ≤ 16) :
    ∃ u st S, WFLCG_c_get_value obj = some (u, st) ∧
      WFLCG_c_get_double obj = some (0x3FF0000000000000 ||| (u <<< 20), st) ∧
      (0x3FF0000000000000 ||| (u <<< 20)) % 2 ^ 20 = 0 ∧
      ((0x3FF0000000000000 ||| (u <<< 20)) / 2 ^ 20) % 2 ^ 32 = u ∧
      S = (if obj.index < 16 then obj else WFLCG_c_refill_buffer obj) ∧
      st = ⟨S.buffer, S.index + 1⟩ := by
  obtain ⟨v, hv, hg⟩ := get_value_eq obj h hc
  obtain ⟨w, hw, hd⟩ := get_double_eq obj h hc
  rw [hv] at hw
  injection hw with hw
  subst hw
  have hv32 : v < 2 ^ 32 :=
    lane_lt_of_getElem? _ (refill_if_exhausted_lanesU32 obj h hu) _ v hv
  have hf := fold24_lt v hv32
  obtain ⟨hs, hsm⟩ := shift20_lt (fold24 v) hf
  have hor := (double_pattern _ hs).1
  have hmul : fold24 v <<< 20 = fold24 v * 2 ^ 20 := Nat.shiftLeft_eq _ _
  rw [hsm] at hd
  refine ⟨fold24 v, _, refill_if_exhausted obj, hg, hd, ?_, ?_,
    refill_if_exhausted_eq obj hc, rfl⟩
  · rw [hor, hmul]; omega
  · rw [hor, hmul]; omega

/-- Witness for C13: the all-ones buffer at cursor 2. -/
theorem get_double_spec_witness :
    HasLanes ⟨List.replicate 16 4294967295, 2⟩ ∧
    LanesU32 ⟨List.replicate 16 4294967295, 2⟩ ∧
    (WFLCG_c.mk (List.replicate 16 4294967295) 2).index ≤ 16 ∧
    ∃ u st S, WFLCG_c_get_value ⟨List.replicate 16 4294967295, 2⟩ = some (u, st) ∧
      WFLCG_c_get_double ⟨List.replicate 16 4294967295, 2⟩
        = some (0x3FF0000000000000 ||| (u <<< 20), st) ∧
      (0x3FF0000000000000 ||| (u <<< 20)) % 2 ^ 20 = 0 ∧
      ((0x3FF0000000000000 ||| (u <<< 20)) / 2 ^ 20) % 2 ^ 32 = u ∧
      S = (if (WFLCG_c.mk (List.replicate 16 4294967295) 2).index < 16
        then ⟨List.replicate 16 4294967295, 2⟩
        else WFLCG_c_refill_buffer ⟨List.replicate 16 4294967295, 2⟩) ∧
      st = ⟨S.buffer, S.index + 1⟩ :=
  ⟨by decide, by decide, by decide,
    get_double_spec ⟨List.replicate 16 4294967295, 2⟩ (by decide) (by decide) (by decide)⟩

/-! ## nextDouble2 -/

theorem call_n_double2_even :
    ∀ (n : Nat) (obj : WFLCG_c), HasLanes obj → obj.index ≤ 16 → obj.index % 2 = 0 →
      ∃ outs st, call_n WFLCG_c_get_double2 n obj = some (outs, st) ∧ outs.length = n ∧
        HasLanes st ∧ st.index % 2 = 0 ∧ st.index ≤ 16 := by
  intro n
  induction n with
  | zero => intro obj h hc he; exact ⟨[], obj, rfl, rfl, h, he, hc⟩
  | succ n ih =>
    intro obj h hc he
    have hS := refill_if_exhausted_hasLanes obj h
    obtain ⟨hi, v1, v2, _, _, hg⟩ := get_double2_eq obj h (by omega)
    have hev : (refill_if_exhausted obj).index % 2 = 0 := by
      unfold refill_if_exhausted WFLCG_C_BUFFER_SIZE
      by_cases h16 : obj.index = 16
      · rw [if_pos h16]; rfl
      · rw [if_neg h16]; exact he
    obtain ⟨outs, st, hcall, hlen, hst, hste, hstc⟩ :=
      ih ⟨(refill_if_exhausted obj).buffer, (refill_if_exhausted obj).index + 2⟩ hS
        (by simp only []; omega) (by simp only []; omega)
    exact ⟨double2_bits v1 v2 :: outs, st, by simp only [call_n, hg, hcall, double2_bits],
      by simp [hlen], hst, hste, hstc⟩

/-- C14: for every state with 16 `uint32_t` lanes and cursor `c ≤ 14` or `c = 16`, with `S`
the state itself when `c < 16` and the refilled state when `c = 16`, `WFLCG_c_get_double2`
reads the two lanes `S.buffer[S.index]` and `S.buffer[S.index + 1]`, both inside the 16-lane
buffer `S.buffer`, returns `0x3FF0000000000000 | ((v1 << 20) xor (v2 >> 4))` with neither
lane folded and no bit lost in 64 bits, leaves the buffer equal to `S.buffer` and moves the
cursor to `S.index + 2 ≤ 16`. A generator fresh from seeding and read `n` times through
`WFLCG_c_get_double2` only never reads outside the buffer and has an even cursor `≤ 16`. -/
theorem get_double2_spec (obj : WFLCG_c) (h : HasLanes obj) (hu : LanesU32 obj)
    (hc : obj.index ≤ 14 ∨ obj.index = 16)
    (mem obj0 : WFLCG_c) (hm : HasLanes mem) (s s1 s2 : Nat)
    (h0 : obj0 = WFLCG_c_init_1_seed mem s ∨ obj0 = WFLCG_c_init_2_seeds mem s1 s2 ∨
      obj0 = WFLCG_c_init_default mem)
    (n : Nat) :
    (∃ S v1 v2, S = (if obj.index < 16 then obj else WFLCG_c_refill_buffer obj) ∧
      S.buffer.length = 16 ∧ S.index + 1 < 16 ∧
      S.buffer[S.index]? = some v1 ∧ S.buffer[S.index + 1]? = some v2 ∧
      WFLCG_c_get_double2 obj =
        some (0x3FF0000000000000 ||| ((v1 <<< 20) ^^^ (v2 >>> 4)),
          ⟨S.buffer, S.index + 2⟩) ∧
      S.index + 2 ≤ 16) ∧
    (∃ outs st, call_n WFLCG_c_get_double2 n obj0 = some (outs, st) ∧ outs.length = n ∧
      st.index % 2 = 0 ∧ st.index ≤ 16) := by
  constructor
  · obtain ⟨hi, v1, v2, hv1, hv2, hg⟩ := get_double2_eq obj h hc
    have hL := refill_if_exhausted_lanesU32 obj h hu
    have h1 : v1 < 2 ^ 32 := lane_lt_of_getElem? _ hL _ v1 hv1
    rw [(shift20_lt v1 h1).2] at hg
    exact ⟨refill_if_exhausted obj, v1, v2, refill_if_exhausted_eq obj (by omega),
      refill_if_exhausted_hasLanes obj h, by omega, hv1, hv2, hg, by omega⟩
  · have hidx := seeded_index mem obj0 s s1 s2 h0
    obtain ⟨outs, st, hcall, hlen, _, hste, hstc⟩ :=
      call_n_double2_even n obj0 (seeded_hasLanes mem obj0 hm s s1 s2 h0)
        (by rw [hidx]; omega) (by rw [hidx])
    exact ⟨outs, st, hcall, hlen, hste, hstc⟩

/-- Witness for C14: the all-ones buffer at cursor 14 (the last admissible pair), and the
default generator read 20 times through `WFLCG_c_get_double2`. -/
theorem get_double2_spec_witness :
    HasLanes ⟨List.replicate 16 4294967295, 14⟩ ∧
    LanesU32 ⟨List.replicate 16 4294967295, 14⟩ ∧
    ((WFLCG_c.mk (List.replicate 16 4294967295) 14).index ≤ 14 ∨
      (WFLCG_c.mk (List.replicate 16 4294967295) 14).index = 16) ∧
    HasLanes zero_state ∧
    (WFLCG_c_init_default zero_state = WFLCG_c_init_1_seed zero_state 0 ∨
      WFLCG_c_init_default zero_state = WFLCG_c_init_2_seeds zero_state 0 0 ∨
      WFLCG_c_init_default zero_state = WFLCG_c_init_default zero_state) ∧
    ((∃ S v1 v2,
      S = (if (WFLCG_c.mk (List.replicate 16 4294967295) 14).index < 16
        then ⟨List.replicate 16 4294967295, 14⟩
        else WFLCG_c_refill_buffer ⟨List.replicate 16 4294967295, 14⟩) ∧
      S.buffer.length = 16 ∧ S.index + 1 < 16 ∧
      S.buffer[S.index]? = some v1 ∧ S.buffer[S.index + 1]? = some v2 ∧
      WFLCG_c_get_double2 ⟨List.replicate 16 4294967295, 14⟩ =
        some (0x3FF0000000000000 ||| ((v1 <<< 20) ^^^ (v2 >>> 4)),
          ⟨S.buffer, S.index + 2⟩) ∧
      S.index + 2 ≤ 16) ∧
    (∃ outs st,
      call_n WFLCG_c_get_double2 20 (WFLCG_c_init_default zero_state) = some (outs, st) ∧
      outs.length = 20 ∧ st.index % 2 = 0 ∧ st.index ≤ 16)) :=
  ⟨by decide, by decide, by decide, by decide, Or.inr (Or.inr rfl),
    get_double2_spec ⟨List.replicate 16 4294967295, 14⟩ (by decide) (by decide) (by decide)
      zero_state (WFLCG_c_init_default zero_state) (by decide) 0 0 0 (Or.inr (Or.inr rfl)) 20⟩

/-! ## Direct double views -/

theorem get_double_at (buf : List Nat) (c v : Nat) (hl : buf.length = 16)
    (hv : buf[c]? = some v) :
    WFLCG_c_get_double ⟨buf, c⟩ = some (double_bits (fold24 v), ⟨buf, c + 1⟩) := by
  simp only [WFLCG_c_get_double, get_value_at buf c v hl hv, double_bits]

theorem get_double2_at (buf : List Nat) (c v1 v2 : Nat) (hl : buf.length = 16)
    (hv1 : buf[c]? = some v1) (hv2 : buf[c + 1]? = some v2) :
    WFLCG_c_get_double2 ⟨buf, c⟩ = some (double2_bits v1 v2, ⟨buf, c + 2⟩) := by
  have hc : c + 1 < 16 := by
    rw [← hl]; exact (List.getElem?_eq_some_iff.mp hv2).1
  have hne : ¬ (c = 16) := by omega
  have hm1 : (c + 1) % 2 ^ 32 = c + 1 := by omega
  have hm2 : (c + 2) % 2 ^ 32 = c + 2 := by omega
  simp only [WFLCG_c_get_double2, refill_if_exhausted, WFLCG_C_BUFFER_SIZE, if_neg hne, hm1,
    hm2, hv1, hv2, double2_bits]

theorem call_n_double2_pairs (buf : List Nat) (hl : buf.length = 16) :
    ∀ (n c : Nat), c + 2 * n ≤ 16 →
      ∃ outs, call_n WFLCG_c_get_double2 n ⟨buf, c⟩ = some (outs, ⟨buf, c + 2 * n⟩) ∧
        outs.length = n ∧
        ∀ j, j < n → ∃ v1 v2, buf[c + 2 * j]? = some v1 ∧ buf[c + 2 * j + 1]? = some v2 ∧
          outs[j]? = some (double2_bits v1 v2) := by
  intro n
  induction n with
  | zero => intro c _; exact ⟨[], rfl, rfl, fun j hj => absurd hj (Nat.not_lt_zero j)⟩
  | succ n ih =>
    intro c hc
    have hc1 : c < buf.length := by omega
    have hc2 : c + 1 < buf.length := by omega
    have hstep := get_double2_at buf c buf[c] buf[c + 1] hl (List.getElem?_eq_getElem hc1)
      (List.getElem?_eq_getElem hc2)
    obtain ⟨outs, hcall, hlen, hall⟩ := ih (c + 2) (by omega)
    have e : c + 2 + 2 * n = c + 2 * (n + 1) := by omega
    rw [e] at hcall
    refine ⟨double2_bits buf[c] buf[c + 1] :: outs, by simp only [call_n, hstep, hcall],
      by simp [hlen], ?_⟩
    intro j hj
    cases j with
    | zero =>
      exact ⟨buf[c], buf[c + 1], List.getElem?_eq_getElem hc1, List.getElem?_eq_getElem hc2,
        by simp⟩
    | succ j =>
      obtain ⟨v1, v2, h1, h2, h3⟩ := hall j (by omega)
      have e1 : c + 2 + 2 * j = c + 2 * (j + 1) := by omega
      rw [e1] at h1 h2
      exact ⟨v1, v2, h1, h2, by simpa using h3⟩

/-- C15: for every state with 16 lanes and cursor 0, (a) for every `i < 16`,
`WFLCG_c_buffer_element_double` at index `i` returns the pattern that the `i`-th (0-based) of
16 consecutive `WFLCG_c_get_double` calls from that state returns, and (b) for every `k < 8`,
`WFLCG_c_buffer_element_double2` at index `2k` returns the pattern that the `k`-th (0-based)
of 8 consecutive `WFLCG_c_get_double2` calls from that state returns; the direct views return
the state unchanged. -/
theorem buffer_element_double_equiv (obj : WFLCG_c) (h : HasLanes obj) (hc : obj.index = 0)
    (i : Nat) (hi : i < 16) (k : Nat) (hk : k < 8) :
    (∃ bits outs st, WFLCG_c_buffer_element_double obj i = some (bits, obj) ∧
      call_n WFLCG_c_get_double 16 obj = some (outs, st) ∧ outs.length = 16 ∧
      outs[i]? = some bits) ∧
    (∃ bits outs st, WFLCG_c_buffer_element_double2 obj (2 * k) = some (bits, obj) ∧
      call_n WFLCG_c_get_double2 8 obj = some (outs, st) ∧ outs.length = 8 ∧
      outs[k]? = some bits) := by
  have hl : obj.buffer.length = 16 := h
  have hobj : obj = ⟨obj.buffer, 0⟩ := by rw [← hc]
  constructor
  · have hib : i < obj.buffer.length := by omega
    have key := call_n_lanes WFLCG_c_get_double (fun v => double_bits (fold24 v))
      get_double_at obj.buffer hl 16 0 (by omega)
    rw [← hobj, List.drop_zero, List.take_of_length_le (by omega)] at key
    refine ⟨double_bits (fold24 obj.buffer[i]), _, _, ?_, key, by simp [hl], ?_⟩
    · simp only [WFLCG_c_buffer_element_double, List.getElem?_eq_getElem hib, double_bits,
        fold24]
    · simp [List.getElem?_map, List.getElem?_eq_getElem hib]
  · obtain ⟨outs, hcall, hlen, hall⟩ := call_n_double2_pairs obj.buffer hl 8 0 (by omega)
    rw [← hobj] at hcall
    obtain ⟨v1, v2, h1, h2, h3⟩ := hall k hk
    rw [Nat.zero_add] at h1 h2
    have hmod : (2 * k + 1) % 2 ^ 32 = 2 * k + 1 := by omega
    refine ⟨double2_bits v1 v2, outs, _, ?_, hcall, hlen, h3⟩
    simp only [WFLCG_c_buffer_element_double2, hmod, h1, h2, double2_bits]

/-- Witness for C15: the freshly seeded default generator, lane 13 and pair 6. -/
theorem buffer_element_double_equiv_witness :
    HasLanes (WFLCG_c_init_default zero_state) ∧
    (WFLCG_c_init_default zero_state).index = 0 ∧ 13 < 16 ∧ 6 < 8 ∧
    ((∃ bits outs st,
      WFLCG_c_buffer_element_double (WFLCG_c_init_default zero_state) 13
        = some (bits, WFLCG_c_init_default zero_state) ∧
      call_n WFLCG_c_get_double 16 (WFLCG_c_init_default zero_state) = some (outs, st) ∧
      outs.length = 16 ∧ outs[13]? = some bits) ∧
    (∃ bits outs st,
      WFLCG_c_buffer_element_double2 (WFLCG_c_init_default zero_state) (2 * 6)
        = some (bits, WFLCG_c_init_default zero_state) ∧
      call_n WFLCG_c_get_double2 8 (WFLCG_c_init_default zero_state) = some (outs, st) ∧
      outs.length = 8 ∧ outs[6]? = some bits)) :=
  ⟨by decide, by decide, by decide, by decide,
    buffer_element_double_equiv (WFLCG_c_init_default zero_state) (by decide) (by decide) 13
      (by decide) 6 (by decide)⟩

/-! ## Properties of the lane updates, the tables and the fold -/

theorem lane_step_parity (i : Nat) (hi : i < 16) :
    multipliers.getD i 0 % 4 = 1 ∧ increments.getD i 0 % 2 = 1 ∧
    multipliers.getD i 0 < 2 ^ 32 ∧ increments.getD i 0 < 2 ^ 32 := by
  interval_cases i <;> decide

theorem lane_step_ne_self (i : Nat) (hi : i < 16) (x : Nat) : lane_step i x ≠ x := by
  obtain ⟨hm, hc, _, _⟩ := lane_step_parity i hi
  intro hfix
  unfold lane_step at hfix
  generalize multipliers.getD i 0 = m at hm hfix
  generalize increments.getD i 0 = c at hc hfix
  have h1 : (x * m + c) % 2 = x % 2 := by
    have : (x * m + c) % 2 ^ 32 % 2 = (x * m + c) % 2 :=
      Nat.mod_mod_of_dvd _ (by norm_num)
    rw [← this, hfix]
  have h2 : (x * m) % 2 = x % 2 := by
    rw [Nat.mul_mod]
    have : m % 2 = 1 := by omega
    rw [this, Nat.mul_one, Nat.mod_mod]
  omega

theorem xor_low_byte (x b : Nat) (hb : b < 2 ^ 8) :
    (x ^^^ b) / 2 ^ 8 = x / 2 ^ 8 ∧ (x ^^^ b) % 2 ^ 8 = (x % 2 ^ 8) ^^^ b := by
  constructor
  · apply Nat.eq_of_testBit_eq
    intro j
    rw [← Nat.shiftRight_eq_div_pow, ← Nat.shiftRight_eq_div_pow, Nat.testBit_shiftRight,
      Nat.testBit_shiftRight, Nat.testBit_xor]
    have : b.testBit (8 + j) = false :=
      Nat.testBit_lt_two_pow (lt_of_lt_of_le hb (Nat.pow_le_pow_right (by norm_num) (by omega)))
    rw [this, Bool.xor_false]
  · apply Nat.eq_of_testBit_eq
    intro j
    rw [Nat.testBit_mod_two_pow, Nat.testBit_xor, Nat.testBit_xor, Nat.testBit_mod_two_pow]
    by_cases hj : j < 8
    · simp [hj]
    · have : b.testBit j = false :=
        Nat.testBit_lt_two_pow
          (lt_of_lt_of_le hb (Nat.pow_le_pow_right (by norm_num) (by omega)))
      simp [hj, this]

theorem fold24_fold24 (x : Nat) (hx : x < 2 ^ 32) : fold24 (fold24 x) = x := by
  unfold fold24
  apply Nat.eq_of_testBit_eq
  intro j
  simp only [Nat.testBit_xor, Nat.testBit_shiftRight]
  have : x.testBit (24 + (24 + j)) = false :=
    Nat.testBit_lt_two_pow (lt_of_lt_of_le hx (Nat.pow_le_pow_right (by norm_num) (by omega)))
  rw [this]
  cases x.testBit j <;> cases x.testBit (24 + j) <;> rfl

theorem fold24_injOn (x y : Nat) (hx : x < 2 ^ 32) (hy : y < 2 ^ 32)
    (hxy : fold24 x = fold24 y) : x = y := by
  rw [← fold24_fold24 x hx, ← fold24_fold24 y hy, hxy]


/-- C16: for every 16-lane buffer and every lane index `i < 16`, the value of lane `i` after
`WFLCG_c_refill_buffer` differs from its value before; none of the 16 lane updates
`x ↦ (x * multipliers[i] + increments[i]) mod 2^32` has a fixed point. -/
theorem refill_changes_every_lane (obj : WFLCG_c) (h : HasLanes obj) (i : Nat) (hi : i < 16)
    (x : Nat) :
    (∃ old new, obj.buffer[i]? = some old ∧
      (WFLCG_c_refill_buffer obj).buffer[i]? = some new ∧ new ≠ old) ∧
    (x * multipliers.getD i 0 + increments.getD i 0) % 2 ^ 32 ≠ x := by
  have hib : i < obj.buffer.length := by rw [h]; exact hi
  have hold := List.getElem?_eq_getElem hib
  exact ⟨⟨obj.buffer[i], _, hold, refill_lane obj i obj.buffer[i] hi hold,
    lane_step_ne_self i hi obj.buffer[i]⟩, lane_step_ne_self i hi x⟩

/-- Witness for C16: the zero buffer, lane 15, and the value `2^32 - 1`. -/
theorem refill_changes_every_lane_witness :
    HasLanes zero_state ∧ 15 < 16 ∧
    ((∃ old new, zero_state.buffer[15]? = some old ∧
      (WFLCG_c_refill_buffer zero_state).buffer[15]? = some new ∧ new ≠ old) ∧
    (4294967295 * multipliers.getD 15 0 + increments.getD 15 0) % 2 ^ 32 ≠ 4294967295) :=
  ⟨by decide, by decide, refill_changes_every_lane zero_state (by decide) 15 (by decide)
    4294967295⟩

/-- C17: the coefficient tables hold 16 distinct multiplier/increment pairs: for lane indices
`i ≠ j` below 16 the pairs `(multipliers[i], increments[i])` and
`(multipliers[j], increments[j])` differ, and so do the two lane update maps. -/
theorem coefficient_pairs_distinct (i j : Nat) (hi : i < 16) (hj : j < 16) (hij : i ≠ j) :
    (∃ mi ci mj cj, multipliers[i]? = some mi ∧ increments[i]? = some ci ∧
      multipliers[j]? = some mj ∧ increments[j]? = some cj ∧ (mi, ci) ≠ (mj, cj)) ∧
    lane_step i ≠ lane_step j := by
  have key : ∀ a, a < 16 → ∀ b, b < 16 → a ≠ b →
      (multipliers.getD a 0, increments.getD a 0) ≠
        (multipliers.getD b 0, increments.getD b 0) ∧
      (lane_step a 0 ≠ lane_step b 0 ∨ lane_step a 1 ≠ lane_step b 1) := by
    decide
  obtain ⟨hp, hs⟩ := key i hi j hj hij
  have him : i < multipliers.length := hi
  have hic : i < increments.length := hi
  have hjm : j < multipliers.length := hj
  have hjc : j < increments.length := hj
  refine ⟨⟨multipliers[i], increments[i], multipliers[j], increments[j],
    List.getElem?_eq_getElem him, List.getElem?_eq_getElem hic,
    List.getElem?_eq_getElem hjm, List.getElem?_eq_getElem hjc, ?_⟩, ?_⟩
  · simpa [List.getD_eq_getElem?_getD, List.getElem?_eq_getElem him,
      List.getElem?_eq_getElem hic, List.getElem?_eq_getElem hjm,
      List.getElem?_eq_getElem hjc] using hp
  · intro heq
    rcases hs with h0 | h1
    · exact h0 (by rw [heq])
    · exact h1 (by rw [heq])

/-- Witness for C17: lanes 2 and 5, which share the increment 12345 but not the multiplier. -/
theorem coefficient_pairs_distinct_witness :
    2 < 16 ∧ 5 < 16 ∧ 2 ≠ 5 ∧
    ((∃ mi ci mj cj, multipliers[2]? = some mi ∧ increments[2]? = some ci ∧
      multipliers[5]? = some mj ∧ increments[5]? = some cj ∧ (mi, ci) ≠ (mj, cj)) ∧
    lane_step 2 ≠ lane_step 5) :=
  ⟨by decide, by decide, by decide,
    coefficient_pairs_distinct 2 5 (by decide) (by decide) (by decide)⟩

/-- C18: on 32-bit values the fold `x xor (x >> 24)` of `WFLCG_c_get_value` is an
involution with 32-bit values (hence a bijection), it leaves the upper 24 bits unchanged and
replaces the low byte by (low byte xor high byte), and it is injective; so two 16-lane
buffers read by `WFLCG_c_get_value` at the same cursor `c` with distinct 32-bit lanes there
give distinct results. -/
theorem fold_involution (x y : Nat) (hx : x < 2 ^ 32) (hy : y < 2 ^ 32)
    (buf buf' : List Nat) (c : Nat) (hl : buf.length = 16) (hl' : buf'.length = 16)
    (hbx : buf[c]? = some x) (hby : buf'[c]? = some y) :
    (x ^^^ (x >>> 24)) ^^^ ((x ^^^ (x >>> 24)) >>> 24) = x ∧
    x ^^^ (x >>> 24) < 2 ^ 32 ∧
    (x ^^^ (x >>> 24)) / 2 ^ 8 = x / 2 ^ 8 ∧
    (x ^^^ (x >>> 24)) % 2 ^ 8 = (x % 2 ^ 8) ^^^ (x / 2 ^ 24) ∧
    (x ^^^ (x >>> 24) = y ^^^ (y >>> 24) → x = y) ∧
    (WFLCG_c_get_value ⟨buf, c⟩).map Prod.fst = some (x ^^^ (x >>> 24)) ∧
    (WFLCG_c_get_value ⟨buf', c⟩).map Prod.fst = some (y ^^^ (y >>> 24)) ∧
    (x ≠ y → (WFLCG_c_get_value ⟨buf, c⟩).map Prod.fst
      ≠ (WFLCG_c_get_value ⟨buf', c⟩).map Prod.fst) := by
  have hb : x >>> 24 < 2 ^ 8 := by
    rw [Nat.shiftRight_eq_div_pow]; omega
  have hlow := xor_low_byte x (x >>> 24) hb
  have hgx : (WFLCG_c_get_value ⟨buf, c⟩).map Prod.fst = some (fold24 x) := by
    rw [get_value_at buf c x hl hbx]; rfl
  have hgy : (WFLCG_c_get_value ⟨buf', c⟩).map Prod.fst = some (fold24 y) := by
    rw [get_value_at buf' c y hl' hby]; rfl
  refine ⟨fold24_fold24 x hx, fold24_lt x hx, hlow.1, ?_, fold24_injOn x y hx hy, hgx, hgy, ?_⟩
  · rw [hlow.2, Nat.shiftRight_eq_div_pow]
  · intro hne heq
    rw [hgx, hgy] at heq
    injection heq with heq
    exact hne (fold24_injOn x y hx hy heq)

/-- Witness for C18: lane 4 holding `0xDEADBEEF` in one buffer and `0xDEADBE31` in another
(the two values differ only in the low byte). -/
theorem fold_involution_witness :
    3735928559 < 2 ^ 32 ∧ 3735928369 < 2 ^ 32 ∧
    (List.replicate 16 3735928559).length = 16 ∧ (List.replicate 16 3735928369).length = 16 ∧
    (List.replicate 16 3735928559)[4]? = some 3735928559 ∧
    (List.replicate 16 3735928369)[4]? = some 3735928369 ∧
    ((3735928559 ^^^ (3735928559 >>> 24)) ^^^ ((3735928559 ^^^ (3735928559 >>> 24)) >>> 24)
      = 3735928559 ∧
    3735928559 ^^^ (3735928559 >>> 24) < 2 ^ 32 ∧
    (3735928559 ^^^ (3735928559 >>> 24)) / 2 ^ 8 = 3735928559 / 2 ^ 8 ∧
    (3735928559 ^^^ (3735928559 >>> 24)) % 2 ^ 8
      = (3735928559 % 2 ^ 8) ^^^ (3735928559 / 2 ^ 24) ∧
    (3735928559 ^^^ (3735928559 >>> 24) = 3735928369 ^^^ (3735928369 >>> 24) →
      3735928559 = 3735928369) ∧
    (WFLCG_c_get_value ⟨List.replicate 16 3735928559, 4⟩).map Prod.fst
      = some (3735928559 ^^^ (3735928559 >>> 24)) ∧
    (WFLCG_c_get_value ⟨List.replicate 16 3735928369, 4⟩).map Prod.fst
      = some (3735928369 ^^^ (3735928369 >>> 24)) ∧
    (3735928559 ≠ 3735928369 →
      (WFLCG_c_get_value ⟨List.replicate 16 3735928559, 4⟩).map Prod.fst
        ≠ (WFLCG_c_get_value ⟨List.replicate 16 3735928369, 4⟩).map Prod.fst)) :=
  ⟨by decide, by decide, by decide, by decide, by decide, by decide,
    fold_involution 3735928559 3735928369 (by decide) (by decide)
      (List.replicate 16 3735928559) (List.replicate 16 3735928369) 4 (by decide) (by decide)
      (by decide) (by decide)⟩

/-! ## The output stream as a function of the seed -/

theorem refill_iterate_hasLanes (q : Nat) :
    ∀ obj : WFLCG_c, HasLanes obj → HasLanes (WFLCG_c_refill_buffer^[q] obj) := by
  induction q with
  | zero => intro obj h; exact h
  | succ q ih =>
    intro obj h
    rw [Function.iterate_succ_apply]
    exact ih _ (refill_hasLanes obj h)

theorem refill_iterate_lane (q : Nat) :
    ∀ (obj : WFLCG_c) (i x : Nat), i < 16 → obj.buffer[i]? = some x →
      (WFLCG_c_refill_buffer^[q] obj).buffer[i]? = some ((lane_step i)^[q] x) := by
  induction q with
  | zero => intro obj i x _ hx; exact hx
  | succ q ih =>
    intro obj i x hi hx
    rw [Function.iterate_succ_apply, Function.iterate_succ_apply]
    exact ih (WFLCG_c_refill_buffer obj) i (lane_step i x) hi (refill_lane obj i x hi hx)

theorem refill_eta (obj : WFLCG_c) :
    WFLCG_c_refill_buffer obj = ⟨(WFLCG_c_refill_buffer obj).buffer, 0⟩ := by
  have hi : (WFLCG_c_refill_buffer obj).index = 0 := refill_index obj
  revert hi
  generalize WFLCG_c_refill_buffer obj = r
  intro hi
  cases r
  simp only [] at hi
  subst hi
  rfl

theorem get_value_exhausted (B : List Nat) :
    WFLCG_c_get_value ⟨B, 16⟩ =
      WFLCG_c_get_value ⟨(WFLCG_c_refill_buffer ⟨B, 0⟩).buffer, 0⟩ := by
  simp [WFLCG_c_get_value, refill_if_exhausted, WFLCG_C_BUFFER_SIZE, WFLCG_c_refill_buffer]

theorem call_n_exhausted (B : List Nat) (n : Nat) (hn : 0 < n) :
    call_n WFLCG_c_get_value n ⟨B, 16⟩ =
      call_n WFLCG_c_get_value n ⟨(WFLCG_c_refill_buffer ⟨B, 0⟩).buffer, 0⟩ := by
  cases n with
  | zero => exact absurd hn (Nat.lt_irrefl 0)
  | succ n => simp only [call_n, get_value_exhausted]

theorem get_value_stream (q : Nat) :
    ∀ (B : List Nat), B.length = 16 → ∀ r, r < 16 →
      ∃ outs st x, call_n WFLCG_c_get_value (16 * q + r + 1) ⟨B, 0⟩ = some (outs, st) ∧
        outs.length = 16 * q + r + 1 ∧ HasLanes st ∧ st.index ≤ 16 ∧
        (WFLCG_c_refill_buffer^[q] ⟨B, 0⟩).buffer[r]? = some x ∧
        outs[16 * q + r]? = some (fold24 x) := by
  induction q with
  | zero =>
    intro B hl r hr
    have key := call_n_lanes WFLCG_c_get_value fold24 get_value_at B hl (r + 1) 0 (by omega)
    have hrb : r < B.length := by omega
    have hst : HasLanes ⟨B, 0 + (r + 1)⟩ := hl
    refine ⟨List.map fold24 (List.take (r + 1) (List.drop 0 B)), ⟨B, 0 + (r + 1)⟩, B[r],
      by simpa using key, by simp; omega, hst, by simp only []; omega,
      List.getElem?_eq_getElem hrb, ?_⟩
    simp [List.getElem?_map, List.getElem?_take, List.getElem?_eq_getElem hrb]
  | succ q ih =>
    intro B hl r hr
    have hblock := call_n_lanes WFLCG_c_get_value fold24 get_value_at B hl 16 0 (by omega)
    rw [List.drop_zero, List.take_of_length_le (by omega), Nat.zero_add] at hblock
    have hl' : (WFLCG_c_refill_buffer ⟨B, 0⟩).buffer.length = 16 :=
      refill_hasLanes ⟨B, 0⟩ hl
    obtain ⟨outs, st, x, hcall, hlen, hst, hidx, hx, hout⟩ :=
      ih (WFLCG_c_refill_buffer ⟨B, 0⟩).buffer hl' r hr
    rw [← call_n_exhausted B _ (by omega)] at hcall
    have happ := call_n_append WFLCG_c_get_value 16 (16 * q + r + 1) _ _ _ _ _ hblock hcall
    have e : 16 + (16 * q + r + 1) = 16 * (q + 1) + r + 1 := by omega
    rw [e] at happ
    refine ⟨_, st, x, happ, by simp [hlen, hl]; omega, hst, hidx, ?_, ?_⟩
    · rw [Function.iterate_succ_apply, refill_eta]
      exact hx
    · have hle : (List.map fold24 B).length ≤ 16 * (q + 1) + r := by simp [hl]; omega
      rw [List.getElem?_append_right hle]
      have e2 : 16 * (q + 1) + r - (List.map fold24 B).length = 16 * q + r := by
        simp [hl]; omega
      rw [e2]
      exact hout

theorem call_n_get_value_total :
    ∀ (n : Nat) (obj : WFLCG_c), HasLanes obj → obj.index ≤ 16 →
      ∃ outs st, call_n WFLCG_c_get_value n obj = some (outs, st) ∧ outs.length = n := by
  intro n
  induction n with
  | zero => intro obj _ _; exact ⟨[], obj, rfl, rfl⟩
  | succ n ih =>
    intro obj h hc
    obtain ⟨v, _, hg⟩ := get_value_eq obj h hc
    have hi := refill_if_exhausted_index_lt obj hc
    obtain ⟨outs, st, hcall, hlen⟩ :=
      ih ⟨(refill_if_exhausted obj).buffer, (refill_if_exhausted obj).index + 1⟩
        (refill_if_exhausted_hasLanes obj h) (by simp only []; omega)
    exact ⟨(v ^^^ (v >>> 24)) :: outs, st, by simp only [call_n, hg, hcall], by simp [hlen]⟩

/-- The `k`-th of `N` consecutive results of `WFLCG_c_get_value` on a generator seeded by
`WFLCG_c_init_1_seed`, in closed form. -/
theorem get_value_stream_seeded (mem : WFLCG_c) (hm : HasLanes mem) (s N k : Nat)
    (hk : k < N) :
    ∃ outs st, call_n WFLCG_c_get_value N (WFLCG_c_init_1_seed mem s) = some (outs, st) ∧
      outs.length = N ∧
      outs[k]? = some (fold24 ((lane_step (k % 16))^[k / 16] (seed_step_1^[k % 16 + 2] s))) := by
  have hL := init_1_seed_hasLanes mem hm s
  have hl : (WFLCG_c_init_1_seed mem s).buffer.length = 16 := hL
  have hobj : WFLCG_c_init_1_seed mem s = ⟨(WFLCG_c_init_1_seed mem s).buffer, 0⟩ := rfl
  have hr : k % 16 < 16 := Nat.mod_lt _ (by norm_num)
  obtain ⟨vs, mid, x, hcall, hlen, hmid, hmidx, hx, hout⟩ :=
    get_value_stream (k / 16) (WFLCG_c_init_1_seed mem s).buffer hl (k % 16) hr
  rw [← hobj] at hcall hx
  have hk16 : 16 * (k / 16) + k % 16 = k := Nat.div_add_mod k 16
  rw [hk16] at hcall hlen hout
  have hlane := refill_iterate_lane (k / 16) (WFLCG_c_init_1_seed mem s) (k % 16) _ hr
    (init_1_seed_lane mem hm s (k % 16) hr)
  rw [hlane] at hx
  injection hx with hx
  obtain ⟨ws, st, hrest, hwlen⟩ := call_n_get_value_total (N - (k + 1)) mid hmid hmidx
  have happ := call_n_append WFLCG_c_get_value (k + 1) (N - (k + 1)) _ _ _ _ _ hcall hrest
  have e : k + 1 + (N - (k + 1)) = N := by omega
  rw [e] at happ
  refine ⟨vs ++ ws, st, happ, by simp [hlen, hwlen]; omega, ?_⟩
  rw [List.getElem?_append_left (by omega), hout, hx]

theorem init_1_seed_mem_irrelevant (mem mem' : WFLCG_c) (hm : HasLanes mem)
    (hm' : HasLanes mem') (s : Nat) :
    WFLCG_c_init_1_seed mem s = WFLCG_c_init_1_seed mem' s := by
  have hb : (WFLCG_c_init_1_seed mem s).buffer = (WFLCG_c_init_1_seed mem' s).buffer := by
    apply List.ext_getElem?
    intro j
    by_cases hj : j < 16
    · rw [init_1_seed_lane mem hm s j hj, init_1_seed_lane mem' hm' s j hj]
    · have h1 : (WFLCG_c_init_1_seed mem s).buffer.length = 16 := init_1_seed_hasLanes mem hm s
      have h2 : (WFLCG_c_init_1_seed mem' s).buffer.length = 16 :=
        init_1_seed_hasLanes mem' hm' s
      rw [List.getElem?_eq_none (by omega), List.getElem?_eq_none (by omega)]
  have hi : (WFLCG_c_init_1_seed mem s).index = (WFLCG_c_init_1_seed mem' s).index := rfl
  cases h1 : WFLCG_c_init_1_seed mem s
  cases h2 : WFLCG_c_init_1_seed mem' s
  rw [h1, h2] at hb hi
  simp only [] at hb hi
  rw [hb, hi]

/-- C11: for every seed `s`, every number of calls `N` and every `k < N`, the `k`-th
(0-based) of `N` consecutive `WFLCG_c_get_value` results on a generator seeded with
`WFLCG_c_init_1_seed` is `fold24` of the lane update `lane_step i` applied `q` times to
`seed_step_1` applied `i + 2` times to `s`, where `i = k mod 16` and `q = k div 16`; two
generators constructed independently (on different memory) with the same seed are equal
states and return the same `N` results. -/
theorem output_stream (mem mem' : WFLCG_c) (hm : HasLanes mem) (hm' : HasLanes mem')
    (s N k : Nat) (hk : k < N) :
    (∃ outs st, call_n WFLCG_c_get_value N (WFLCG_c_init_1_seed mem s) = some (outs, st) ∧
      outs.length = N ∧
      outs[k]? =
        some (fold24 ((lane_step (k % 16))^[k / 16] (seed_step_1^[k % 16 + 2] s)))) ∧
    call_n WFLCG_c_get_value N (WFLCG_c_init_1_seed mem s)
      = call_n WFLCG_c_get_value N (WFLCG_c_init_1_seed mem' s) := by
  refine ⟨get_value_stream_seeded mem hm s N k hk, ?_⟩
  rw [init_1_seed_mem_irrelevant mem mem' hm hm' s]

/-- Witness for C11: seed 2024, 40 calls, the value at position 37 (third buffer
generation, lane 5), with generators built on two different memories. -/
theorem output_stream_witness :
    HasLanes zero_state ∧ HasLanes ⟨List.range 16, 7⟩ ∧ 37 < 40 ∧
    ((∃ outs st,
      call_n WFLCG_c_get_value 40 (WFLCG_c_init_1_seed zero_state 2024) = some (outs, st) ∧
      outs.length = 40 ∧
      outs[37]? =
        some (fold24 ((lane_step (37 % 16))^[37 / 16] (seed_step_1^[37 % 16 + 2] 2024)))) ∧
    call_n WFLCG_c_get_value 40 (WFLCG_c_init_1_seed zero_state 2024)
      = call_n WFLCG_c_get_value 40 (WFLCG_c_init_1_seed ⟨List.range 16, 7⟩ 2024)) :=
  ⟨by decide, by decide, by decide,
    output_stream zero_state ⟨List.range 16, 7⟩ (by decide) (by decide) 2024 40 37
      (by decide)⟩

/-! ## Full period of the lanes -/

theorem geom_add (m a : Nat) : ∀ b, geom m (a + b) = geom m a + m ^ a * geom m b := by
  induction a with
  | zero => intro b; simp [geom]
  | succ a ih =>
    intro b
    have e : a + 1 + b = (a + b) + 1 := by omega
    rw [e]
    simp only [geom, ih b, pow_succ]
    ring

theorem geom_mod_two (m : Nat) (hm : m % 2 = 1) : ∀ n, geom m n % 2 = n % 2 := by
  intro n
  induction n with
  | zero => rfl
  | succ n ih =>
    simp only [geom]
    have h1 : (m * geom m n) % 2 = n % 2 := by
      rw [Nat.mul_mod, hm, ih, Nat.one_mul, Nat.mod_mod]
    omega

theorem pow_mod_four (m : Nat) (hm : m % 4 = 1) : ∀ n, m ^ n % 4 = 1 := by
  intro n
  induction n with
  | zero => rfl
  | succ n ih => rw [pow_succ, Nat.mul_mod, ih, hm]

theorem odd_coprime_two_pow (k u : Nat) (hu : u % 2 = 1) : Nat.Coprime (2 ^ k) u := by
  apply Nat.Coprime.pow_left
  rw [Nat.coprime_two_left]
  exact Nat.odd_iff.mpr hu

theorem two_pow_dvd_geom (m : Nat) (hm : m % 4 = 1) :
    ∀ k n, 2 ^ k ∣ geom m n ↔ 2 ^ k ∣ n := by
  intro k
  induction k with
  | zero => intro n; simp
  | succ k ih =>
    intro n
    have hm2 : m % 2 = 1 := by omega
    rcases Nat.even_or_odd' n with ⟨a, rfl | rfl⟩
    · have hp := pow_mod_four m hm a
      obtain ⟨u, hu⟩ : ∃ u, 1 + m ^ a = 2 * u := ⟨(1 + m ^ a) / 2, by omega⟩
      have hu2 : u % 2 = 1 := by omega
      have hg : geom m (2 * a) = 2 * (geom m a * u) := by
        have e : 2 * a = a + a := by omega
        rw [e, geom_add]
        calc geom m a + m ^ a * geom m a = geom m a * (1 + m ^ a) := by ring
          _ = 2 * (geom m a * u) := by rw [hu]; ring
      rw [hg, pow_succ, Nat.mul_comm (2 ^ k) 2,
        Nat.mul_dvd_mul_iff_left (by norm_num : 0 < 2),
        Nat.mul_dvd_mul_iff_left (by norm_num : 0 < 2),
        (odd_coprime_two_pow k u hu2).dvd_mul_right]
      exact ih a
    · have hg : geom m (2 * a + 1) % 2 = 1 := by
        rw [geom_mod_two m hm2]; omega
      have h2 : (2 : Nat) ∣ 2 ^ (k + 1) := Dvd.intro_left (2 ^ k) rfl
      constructor
      · intro hd
        have := Nat.dvd_trans h2 hd
        omega
      · intro hd
        have := Nat.dvd_trans h2 hd
        omega

theorem affine_iterate (d c x : Nat) :
    ∀ n, (fun y => y * (d + 1) + c)^[n] x = x + geom (d + 1) n * (d * x + c) := by
  intro n
  induction n with
  | zero => simp [geom]
  | succ n ih =>
    rw [Function.iterate_succ_apply', ih]
    simp only [geom]
    ring

theorem lcg_iterate_modEq (m c x : Nat) :
    ∀ n, (fun y => (y * m + c) % 2 ^ 32)^[n] x ≡ (fun y => y * m + c)^[n] x [MOD 2 ^ 32] := by
  intro n
  induction n with
  | zero => exact Nat.ModEq.refl x
  | succ n ih =>
    rw [Function.iterate_succ_apply', Function.iterate_succ_apply']
    exact (Nat.mod_modEq _ _).trans ((ih.mul_right m).add_right c)

theorem lcg_iterate_lt (m c x : Nat) (hx : x < 2 ^ 32) :
    ∀ n, (fun y => (y * m + c) % 2 ^ 32)^[n] x < 2 ^ 32 := by
  intro n
  cases n with
  | zero => exact hx
  | succ n =>
    rw [Function.iterate_succ_apply']
    exact Nat.mod_lt _ (by norm_num)

/-- Full period of a linear congruential step modulo `2^32` whose multiplier is `1 mod 4`
and whose increment is odd. -/
theorem lcg_full_period (m c : Nat) (hm : m % 4 = 1) (hc : c % 2 = 1) (x : Nat)
    (hx : x < 2 ^ 32) (n : Nat) :
    (fun y => (y * m + c) % 2 ^ 32)^[n] x = x ↔ 2 ^ 32 ∣ n := by
  obtain ⟨d, rfl⟩ : ∃ d, m = d + 1 := ⟨m - 1, by omega⟩
  have hK : (d * x + c) % 2 = 1 := by
    have : (d * x) % 2 = 0 := by
      rw [Nat.mul_mod]
      have : d % 2 = 0 := by omega
      rw [this, Nat.zero_mul]
    omega
  have hlt := lcg_iterate_lt (d + 1) c x hx n
  have hmod := lcg_iterate_modEq (d + 1) c x n
  rw [affine_iterate d c x n] at hmod
  rw [← two_pow_dvd_geom (d + 1) hm 32 n, ← (odd_coprime_two_pow 32 _ hK).dvd_mul_right,
    ← Nat.modEq_zero_iff_dvd]
  constructor
  · intro heq
    rw [heq] at hmod
    exact Nat.ModEq.add_left_cancel' x hmod.symm
  · intro hz
    have h1 : x + geom (d + 1) n * (d * x + c) ≡ x + 0 [MOD 2 ^ 32] :=
      Nat.ModEq.add_left x hz
    exact Nat.ModEq.eq_of_lt_of_lt (hmod.trans h1) hlt hx

theorem lane_step_full_period (i : Nat) (hi : i < 16) (x : Nat) (hx : x < 2 ^ 32) (n : Nat) :
    (lane_step i)^[n] x = x ↔ 2 ^ 32 ∣ n := by
  obtain ⟨hm, hc, _, _⟩ := lane_step_parity i hi
  exact lcg_full_period _ _ hm hc x hx n


theorem lane_step_injOn (i : Nat) (hi : i < 16) (x y : Nat) (hx : x < 2 ^ 32)
    (hy : y < 2 ^ 32) (hxy : lane_step i x = lane_step i y) : x = y := by
  have e : 2 ^ 32 = (2 ^ 32 - 1) + 1 := by norm_num
  have px := (lane_step_full_period i hi x hx (2 ^ 32)).mpr (Nat.dvd_refl _)
  have py := (lane_step_full_period i hi y hy (2 ^ 32)).mpr (Nat.dvd_refl _)
  rw [e, Function.iterate_succ_apply] at px py
  rw [← px, ← py, hxy]

theorem refill_iterate_buffer_eq_iff (obj : WFLCG_c) (h : HasLanes obj) (hu : LanesU32 obj)
    (n : Nat) :
    (WFLCG_c_refill_buffer^[n] obj).buffer = obj.buffer ↔ 2 ^ 32 ∣ n := by
  have hl : obj.buffer.length = 16 := h
  have hln : (WFLCG_c_refill_buffer^[n] obj).buffer.length = 16 :=
    refill_iterate_hasLanes n obj h
  constructor
  · intro heq
    have h0 : 0 < obj.buffer.length := by omega
    have hget := List.getElem?_eq_getElem h0
    have hlane := refill_iterate_lane n obj 0 _ (by norm_num) hget
    rw [heq, hget] at hlane
    exact (lane_step_full_period 0 (by norm_num) _ (hu _ (List.getElem_mem h0)) n).mp
      (Option.some.inj hlane).symm
  · intro hd
    apply List.ext_getElem?
    intro j
    by_cases hj : j < 16
    · have hjb : j < obj.buffer.length := by omega
      have hget := List.getElem?_eq_getElem hjb
      rw [refill_iterate_lane n obj j _ hj hget, hget,
        (lane_step_full_period j hj _ (hu _ (List.getElem_mem hjb)) n).mpr hd]
    · rw [List.getElem?_eq_none (by omega), List.getElem?_eq_none (by omega)]

theorem refill_buffer_injOn (obj obj' : WFLCG_c) (h : HasLanes obj) (hu : LanesU32 obj)
    (h' : HasLanes obj') (hu' : LanesU32 obj')
    (heq : (WFLCG_c_refill_buffer obj).buffer = (WFLCG_c_refill_buffer obj').buffer) :
    obj.buffer = obj'.buffer := by
  have hl : obj.buffer.length = 16 := h
  have hl' : obj'.buffer.length = 16 := h'
  apply List.ext_getElem?
  intro j
  by_cases hj : j < 16
  · have hjb : j < obj.buffer.length := by omega
    have hjb' : j < obj'.buffer.length := by omega
    have hget := List.getElem?_eq_getElem hjb
    have hget' := List.getElem?_eq_getElem hjb'
    have h1 : (WFLCG_c_refill_buffer obj).buffer[j]? = some (lane_step j obj.buffer[j]) :=
      refill_lane obj j _ hj hget
    have h2 : (WFLCG_c_refill_buffer obj').buffer[j]? = some (lane_step j obj'.buffer[j]) :=
      refill_lane obj' j _ hj hget'
    rw [heq, h2] at h1
    have h3 : lane_step j obj'.buffer[j] = lane_step j obj.buffer[j] := Option.some.inj h1
    rw [hget, hget', lane_step_injOn j hj _ _ (hu _ (List.getElem_mem hjb))
      (hu' _ (List.getElem_mem hjb')) h3.symm]
  · rw [List.getElem?_eq_none (by omega), List.getElem?_eq_none (by omega)]

theorem refill_buffer_surjOn (obj : WFLCG_c) (h : HasLanes obj) (hu : LanesU32 obj) :
    ∃ src, HasLanes src ∧ LanesU32 src ∧ (WFLCG_c_refill_buffer src).buffer = obj.buffer := by
  have e : 2 ^ 32 - 1 = (2 ^ 32 - 2) + 1 := by norm_num
  refine ⟨WFLCG_c_refill_buffer^[2 ^ 32 - 1] obj, refill_iterate_hasLanes _ obj h, ?_, ?_⟩
  · rw [e, Function.iterate_succ_apply']
    exact refill_lanesU32 _ (refill_iterate_hasLanes _ obj h)
  · have e2 : 2 ^ 32 = (2 ^ 32 - 1) + 1 := by norm_num
    have := (refill_iterate_buffer_eq_iff obj h hu (2 ^ 32)).mpr (Nat.dvd_refl _)
    rw [e2, Function.iterate_succ_apply'] at this
    exact this

/-- C19: every lane is a full-period LCG: for every lane index `i < 16`, every 32-bit `x`
and every `n`, the lane update `lane_step i` applied `n` times to `x` returns `x` if and only
if `2^32` divides `n`. Consequently, on buffers of 16 `uint32_t` lanes, `n` refills restore
the buffer contents if and only if `2^32` divides `n`, and `WFLCG_c_refill_buffer` is
injective and surjective on buffer contents. -/
theorem lane_full_period (i : Nat) (hi : i < 16) (x : Nat) (hx : x < 2 ^ 32) (n : Nat)
    (obj obj' : WFLCG_c) (h : HasLanes obj) (hu : LanesU32 obj) (h' : HasLanes obj')
    (hu' : LanesU32 obj') :
    ((lane_step i)^[n] x = x ↔ 2 ^ 32 ∣ n) ∧
    ((WFLCG_c_refill_buffer^[n] obj).buffer = obj.buffer ↔ 2 ^ 32 ∣ n) ∧
    ((WFLCG_c_refill_buffer obj).buffer = (WFLCG_c_refill_buffer obj').buffer →
      obj.buffer = obj'.buffer) ∧
    (∃ src, HasLanes src ∧ LanesU32 src ∧
      (WFLCG_c_refill_buffer src).buffer = obj.buffer) :=
  ⟨lane_step_full_period i hi x hx n, refill_iterate_buffer_eq_iff obj h hu n,
    refill_buffer_injOn obj obj' h hu h' hu', refill_buffer_surjOn obj h hu⟩

/-- Witness for C19: lane 3 started at 5, `n = 2^31` (half a period), on the zero buffer and
the all-ones buffer. -/
theorem lane_full_period_witness :
    3 < 16 ∧ 5 < 2 ^ 32 ∧ HasLanes zero_state ∧ LanesU32 zero_state ∧
    HasLanes ⟨List.replicate 16 4294967295, 0⟩ ∧
    LanesU32 ⟨List.replicate 16 4294967295, 0⟩ ∧
    (((lane_step 3)^[2147483648] 5 = 5 ↔ 2 ^ 32 ∣ 2147483648) ∧
    ((WFLCG_c_refill_buffer^[2147483648] zero_state).buffer = zero_state.buffer
      ↔ 2 ^ 32 ∣ 2147483648) ∧
    ((WFLCG_c_refill_buffer zero_state).buffer
        = (WFLCG_c_refill_buffer ⟨List.replicate 16 4294967295, 0⟩).buffer →
      zero_state.buffer = (WFLCG_c.mk (List.replicate 16 4294967295) 0).buffer) ∧
    (∃ src, HasLanes src ∧ LanesU32 src ∧
      (WFLCG_c_refill_buffer src).buffer = zero_state.buffer)) :=
  ⟨by decide, by decide, by decide, by decide, by decide, by decide,
    lane_full_period 3 (by decide) 5 (by decide) 2147483648 zero_state
      ⟨List.replicate 16 4294967295, 0⟩ (by decide) (by decide) (by decide) (by decide)⟩

/-! ## Lane 10 and the seeding stream -/

theorem lane_step_10 : lane_step 10 = seed_step_1 := by
  funext x
  simp [lane_step, seed_step_1, multipliers, increments]

/-- C20: lane 10 is refilled with the coefficients (2364742333, 14567) of the seeding step,
so for every seed `s` and `j = 1..5`, after `WFLCG_c_init_1_seed` and `j` refills lane 10
holds the value lane `10 + j` held right after seeding; hence among `N` consecutive
`WFLCG_c_get_value` results of a one-seed or default generator the one at position
`16 * j + 10` equals the one at position `10 + j`. -/
theorem lane_10_replays_seeding (mem : WFLCG_c) (hm : HasLanes mem) (s j N : Nat)
    (hj1 : 1 ≤ j) (hj5 : j ≤ 5) (hN : 16 * j + 10 < N) :
    multipliers[10]? = some 2364742333 ∧ increments[10]? = some 14567 ∧
    (∃ v, (WFLCG_c_refill_buffer^[j] (WFLCG_c_init_1_seed mem s)).buffer[10]? = some v ∧
      (WFLCG_c_init_1_seed mem s).buffer[10 + j]? = some v) ∧
    (∃ outs st w,
      call_n WFLCG_c_get_value N (WFLCG_c_init_1_seed mem s) = some (outs, st) ∧
      outs[16 * j + 10]? = some w ∧ outs[10 + j]? = some w) ∧
    (∃ outs st w,
      call_n WFLCG_c_get_value N (WFLCG_c_init_default mem) = some (outs, st) ∧
      outs[16 * j + 10]? = some w ∧ outs[10 + j]? = some w) := by
  have key : ∀ t : Nat, ∃ outs st w,
      call_n WFLCG_c_get_value N (WFLCG_c_init_1_seed mem t) = some (outs, st) ∧
      outs[16 * j + 10]? = some w ∧ outs[10 + j]? = some w := by
    intro t
    obtain ⟨outs, st, hcall, _, h1⟩ := get_value_stream_seeded mem hm t N (16 * j + 10) hN
    obtain ⟨outs', st', hcall', _, h2⟩ :=
      get_value_stream_seeded mem hm t N (10 + j) (by omega)
    rw [hcall] at hcall'
    injection hcall' with hcall'
    injection hcall' with ho _
    subst ho
    have e1 : (16 * j + 10) % 16 = 10 := by omega
    have e2 : (16 * j + 10) / 16 = j := by omega
    have e3 : (10 + j) % 16 = 10 + j := by omega
    have e4 : (10 + j) / 16 = 0 := by omega
    rw [e1, e2, lane_step_10, ← Function.iterate_add_apply] at h1
    rw [e3, e4, Function.iterate_zero, id_eq] at h2
    have e5 : j + (10 + 2) = 10 + j + 2 := by omega
    rw [e5] at h1
    exact ⟨outs, st, _, hcall, h1, h2⟩
  refine ⟨rfl, rfl, ?_, key s, key 0⟩
  have hlane := refill_iterate_lane j (WFLCG_c_init_1_seed mem s) 10 _ (by norm_num)
    (init_1_seed_lane mem hm s 10 (by norm_num))
  rw [lane_step_10, ← Function.iterate_add_apply] at hlane
  have e5 : j + (10 + 2) = 10 + j + 2 := by omega
  rw [e5] at hlane
  exact ⟨_, hlane, init_1_seed_lane mem hm s (10 + j) (by omega)⟩

/-- Witness for C20: seed 7, one refill (`j = 1`), 27 calls: the 27th value returned
(position 26) equals the 12th (position 11). -/
theorem lane_10_replays_seeding_witness :
    HasLanes zero_state ∧ 1 ≤ 1 ∧ 1 ≤ 5 ∧ 16 * 1 + 10 < 27 ∧
    (multipliers[10]? = some 2364742333 ∧ increments[10]? = some 14567 ∧
    (∃ v, (WFLCG_c_refill_buffer^[1] (WFLCG_c_init_1_seed zero_state 7)).buffer[10]? = some v ∧
      (WFLCG_c_init_1_seed zero_state 7).buffer[10 + 1]? = some v) ∧
    (∃ outs st w,
      call_n WFLCG_c_get_value 27 (WFLCG_c_init_1_seed zero_state 7) = some (outs, st) ∧
      outs[16 * 1 + 10]? = some w ∧ outs[10 + 1]? = some w) ∧
    (∃ outs st w,
      call_n WFLCG_c_get_value 27 (WFLCG_c_init_default zero_state) = some (outs, st) ∧
      outs[16 * 1 + 10]? = some w ∧ outs[10 + 1]? = some w)) :=
  ⟨by decide, by decide, by decide, by decide,
    lane_10_replays_seeding zero_state (by decide) 7 1 27 (by decide) (by decide)
      (by decide)⟩

end WFLCG
